import Mathlib

/-!
Verification of the `heapedcache` Go package (files `heapedcache.go`,
`heapedcache_test.go`) against its natural-language specification.

The embedding below is a shallow one:

* Go heap-allocated `*HeapedCacheItem` records are modelled by an arena
  (`store : List Item`); a Go pointer is an index (`Nat`) into the arena.
  The arena only grows, so an allocated index is never dangling; pointer
  writes go through `storeModify`.
* The `map[any]*HeapedCacheItem` is modelled as an association list from
  keys to arena indices (`mapItems`); its keys are pairwise distinct in
  every reachable state, so list length is exactly the Go map size.
* The heap slice `[]*HeapedCacheItem` is modelled as
  `sliceItems : List (Option Nat)`: a slot holds `some p` for a pointer
  `p`, or `none` for a Go `nil` entry (the code stores `nil` into slots).
* `time.Time` is modelled by an `Int` read from a logical clock
  (`now`), bumped on every `time.Now()` call, which matches the strictly
  monotone reads of Go's monotonic clock inside a single lock region.
* Fallible steps return `Option`: `none` models a Go runtime panic
  (slice index out of range, or a field access through a `nil` pointer).
* Go's `container/heap` loops (`up`, `down`) are written with an explicit
  structural fuel parameter; every call site passes a fuel that strictly
  exceeds the loop's maximal possible iteration count (`up` strictly
  decreases its index toward 0, `down` strictly increases it below `n`),
  so the fuel-exhaustion branch is unreachable and `none` results only
  from the panics described above.
* The `sync.Mutex` is dropped: all claims are about the sequential
  behaviour of one operation at a time, which is what the lock enforces.
-/

namespace HeapedCacheModel

/-- Go struct `HeapedCacheItem[TId, TObj]`: the cached record.  `obj`
models the nullable Go pointer `*TObj`. -/
structure Item (TId TObj : Type) where
  Id : TId
  index : Int
  Refreshed : Int
  obj : Option TObj
  deriving DecidableEq, Repr

instance itemInhabited {TId TObj : Type} [Inhabited TId] : Inhabited (Item TId TObj) :=
  ⟨⟨default, 0, 0, none⟩⟩

/-- Go struct `HeapedCache[TId, TObj]` plus the arena `store` that models
the Go garbage-collected pointer graph and the logical clock `now`. -/
structure CacheState (TId TObj : Type) where
  maxRows : Int
  mapItems : List (TId × Nat)
  sliceItems : List (Option Nat)
  store : List (Item TId TObj)
  now : Int
  deriving DecidableEq, Repr

section Ops

variable {TId TObj : Type} [DecidableEq TId]

/-- Go map read `m[id]`: `none` when the key is absent (Go yields the
zero value `nil`). -/
def mapLookup : List (TId × Nat) → TId → Option Nat
  | [], _ => none
  | (k', p) :: m, k => if k' = k then some p else mapLookup m k

/-- Go map write `m[id] = p`: replaces the binding when the key is
present, otherwise adds it. -/
def mapAssign : List (TId × Nat) → TId → Nat → List (TId × Nat)
  | [], k, p => [(k, p)]
  | (k', p') :: m, k, p => if k' = k then (k, p) :: m else (k', p') :: mapAssign m k p

/-- Go map `delete(m, id)`: removes the binding when present. -/
def mapDelete : List (TId × Nat) → TId → List (TId × Nat)
  | [], _ => []
  | (k', p') :: m, k => if k' = k then m else (k', p') :: mapDelete m k

/-- Go slice read `s[i]`; `none` models the index-out-of-range panic. -/
def sliceGet {α : Type} (s : List α) (i : Int) : Option α :=
  if 0 ≤ i then s[i.toNat]? else none

/-- Go slice write `s[i] = a`; `none` models the index-out-of-range
panic. -/
def sliceSet {α : Type} (s : List α) (i : Int) (a : α) : Option (List α) :=
  if 0 ≤ i ∧ i < (s.length : Int) then some (s.set i.toNat a) else none

/-- Write through an arena pointer (mutation of a Go heap record).  An
allocated pointer is always in range, so the fallback branch is
unreachable in reachable states. -/
def storeModify (store : List (Item TId TObj)) (p : Nat) (f : Item TId TObj → Item TId TObj) :
    List (Item TId TObj) :=
  match store[p]? with
  | some it => store.set p (f it)
  | none => store

/-- Go `len(t.sliceItems)` as a Go `int`. -/
def slen (st : CacheState TId TObj) : Int :=
  (st.sliceItems.length : Int)

/-- Method `HeapedCacheItems.Less(i, j)`:
`(*h)[i].Refreshed.Compare((*h)[j].Refreshed) < 0`.  `none` models the
panic on an out-of-range index or a `nil` entry. -/
def hLess (st : CacheState TId TObj) (i j : Int) : Option Bool := do
  let oi ← sliceGet st.sliceItems i
  let pi ← oi
  let iti ← st.store[pi]?
  let oj ← sliceGet st.sliceItems j
  let pj ← oj
  let itj ← st.store[pj]?
  pure (iti.Refreshed < itj.Refreshed)

/-- Method `HeapedCacheItems.Swap(i, j)`: when `i != j`, swap the two
slots and then set `(*h)[i].index = i` and `(*h)[j].index = j` (writes
through the swapped pointers; a `nil` entry would panic). -/
def hSwap (st : CacheState TId TObj) (i j : Int) : Option (CacheState TId TObj) :=
  if i = j then some st
  else do
    let a ← sliceGet st.sliceItems i
    let b ← sliceGet st.sliceItems j
    let s1 ← sliceSet st.sliceItems i b
    let s2 ← sliceSet s1 j a
    let pb ← b
    let store1 := storeModify st.store pb (fun it => { it with index := i })
    let pa ← a
    let store2 := storeModify store1 pa (fun it => { it with index := j })
    pure { st with sliceItems := s2, store := store2 }

/-- Loop of `container/heap.up` (Go stdlib), with structural fuel:
repeatedly compare position `j` with its parent `(j-1)/2` (Go integer
division truncates toward zero, hence `Int.tdiv`) and swap while
`Less(j, parent)`. -/
def upLoop : Nat → CacheState TId TObj → Int → Option (CacheState TId TObj)
  | 0, _, _ => none
  | fuel + 1, st, j =>
    let i := Int.tdiv (j - 1) 2
    if i = j then some st
    else do
      let b ← hLess st j i
      if b then do
        let st' ← hSwap st i j
        upLoop fuel st' i
      else pure st

/-- Child selection inside `container/heap.down` (Go stdlib):
`j := j1; if j2 := j1 + 1; j2 < n && h.Less(j2, j1) { j = j2 }` — the
left child unless the right child exists and is strictly smaller (the
`&&` short-circuits, so `Less` runs only when `j2 < n`). -/
def downSelect (st : CacheState TId TObj) (j1 n : Int) : Option Int :=
  if j1 + 1 < n then do
    let b ← hLess st (j1 + 1) j1
    pure (if b then j1 + 1 else j1)
  else pure j1

/-- Loop of `container/heap.down` (Go stdlib), with structural fuel:
sift position `i` down within bound `n`, choosing the smaller child;
returns the final position (Go's `down` returns `i > i0`). -/
def downLoop : Nat → CacheState TId TObj → Int → Int → Option (CacheState TId TObj × Int)
  | 0, _, _, _ => none
  | fuel + 1, st, i, n =>
    let j1 := 2 * i + 1
    if n ≤ j1 ∨ j1 < 0 then some (st, i)
    else do
      let j ← downSelect st j1 n
      let b ← hLess st j i
      if b then do
        let st' ← hSwap st i j
        downLoop fuel st' j n
      else pure (st, i)

/-- Function `container/heap.Fix(h, i)` (Go stdlib):
`if !down(h, i, h.Len()) { up(h, i) }`. -/
def heapFix (st : CacheState TId TObj) (i : Int) : Option (CacheState TId TObj) := do
  let (st1, iEnd) ← downLoop (st.sliceItems.length + 1) st i (slen st)
  if i < iEnd then pure st1 else upLoop (i.toNat + 1) st1 i

/-- Function `container/heap.Push(h, x)` (Go stdlib): the interface call
`h.Push(x)` appends (method `HeapedCacheItems.Push`), then
`up(h, h.Len()-1)`. -/
def heapPushGo (st : CacheState TId TObj) (p : Nat) : Option (CacheState TId TObj) :=
  let st1 : CacheState TId TObj := { st with sliceItems := st.sliceItems ++ [some p] }
  upLoop ((slen st1 - 1).toNat + 1) st1 (slen st1 - 1)

/-- Method `HeapedCacheItems.Pop`: reads the last slot (panics when the
slice is empty), stores `nil` there, sets `item.index = -1`, truncates,
and returns the item pointer. -/
def itemsPop (st : CacheState TId TObj) : Option (CacheState TId TObj × Nat) := do
  let n : Int := slen st
  let o ← sliceGet st.sliceItems (n - 1)
  let s1 ← sliceSet st.sliceItems (n - 1) none
  let p ← o
  let store1 := storeModify st.store p (fun it => { it with index := -1 })
  pure ({ st with sliceItems := s1.dropLast, store := store1 }, p)

/-- Function `container/heap.Pop(h)` (Go stdlib): `n := h.Len() - 1`,
`h.Swap(0, n)`, `down(h, 0, n)`, then the interface call `h.Pop()`.  On
an empty slice `Swap(0, -1)` reads `(*h)[0]` and panics. -/
def heapPopGo (st : CacheState TId TObj) : Option (CacheState TId TObj × Nat) := do
  let n : Int := slen st - 1
  let st1 ← hSwap st 0 n
  let (st2, _) ← downLoop (st1.sliceItems.length + 1) st1 0 n
  itemsPop st2

/-- The state built by `NewHeapedCache(maxRows)` when its two `make`
calls succeed, that is when the capacity hint `maxRows+1` is
non-negative: the empty map and the empty slice with capacity
`maxRows+1` (a succeeding hint only pre-reserves memory and has no
further observable effect).  The constructor itself performs no
validation of `maxRows`; its one failure mode — the run-time panic of
`make` on a negative size/capacity hint — is modelled by
`NewHeapedCacheGo` below, which guards this state constructor. -/
def NewHeapedCache (maxRows : Int) : CacheState TId TObj :=
  { maxRows := maxRows, mapItems := [], sliceItems := [], store := [], now := 0 }

/-- Constructor `NewHeapedCache(maxRows)` in full: it evaluates
`make(map[any]*HeapedCacheItem[TId, TObj], maxRows+1)` and
`make(HeapedCacheItems[TId, TObj], 0, maxRows+1)`, and both panic at
run time when the hint `maxRows+1` is negative (`makemap: size out of
range` / `makeslice: cap out of range`), i.e. when `maxRows ≤ -2`;
otherwise construction succeeds with the empty state. -/
def NewHeapedCacheGo (maxRows : Int) : Option (CacheState TId TObj) :=
  if maxRows + 1 < 0 then none
  else some (NewHeapedCache maxRows)

/-- Private method `pop`, kept at the granularity of its local variable
`item`: `item := heap.Pop(&t.sliceItems).(*HeapedCacheItem)`, then
`delete(t.mapItems, item.Id)`; the method body returns `item.obj`
(projected by `cachePop` below). -/
def popItem (st : CacheState TId TObj) : Option (CacheState TId TObj × Item TId TObj) := do
  let (st1, p) ← heapPopGo st
  let it ← st1.store[p]?
  pure ({ st1 with mapItems := mapDelete st1.mapItems it.Id }, it)

/-- Private method `pop` (and public `Pop`, which only wraps it in the
lock): returns `item.obj`. -/
def cachePop (st : CacheState TId TObj) : Option (CacheState TId TObj × Option TObj) :=
  (popItem st).map (fun r => (r.1, r.2.obj))

/-- Method `Get(id)`: map lookup; returns `nil` when the key is absent,
otherwise `item.obj`.  It performs no writes at all (its result type has
no state component), which is the formal content of "a read never
extends an item's retention". -/
def cacheGet (st : CacheState TId TObj) (id : TId) : Option TObj :=
  match mapLookup st.mapItems id with
  | none => none
  | some p =>
    match st.store[p]? with
    | some it => it.obj
    | none => none

/-- Method `Len()`: `len(t.mapItems)`. -/
def cacheLen (st : CacheState TId TObj) : Int :=
  (st.mapItems.length : Int)

/-- Private method `push(id, item)`: rejects `nil`; on a new key,
creates the record with `index = len(t.sliceItems)` and
`Refreshed = time.Now()`, stores it in the map, `heap.Push`es it, and
evicts the root when `len(t.sliceItems) > t.maxRows`; on an existing
key, overwrites `obj` and `Refreshed` in place and calls `heap.Fix` at
`findItem.index`.  Returns `item`. -/
def cachePush (st : CacheState TId TObj) (id : TId) (item : Option TObj) :
    Option (CacheState TId TObj × Option TObj) :=
  match item with
  | none => some (st, none)
  | some _ =>
    match mapLookup st.mapItems id with
    | none =>
      let newPtr := st.store.length
      let newItem : Item TId TObj :=
        { Id := id, index := slen st, Refreshed := st.now, obj := item }
      let st1 : CacheState TId TObj :=
        { st with store := st.store ++ [newItem], now := st.now + 1 }
      let st2 : CacheState TId TObj := { st1 with mapItems := mapAssign st1.mapItems id newPtr }
      match heapPushGo st2 newPtr with
      | none => none
      | some st3 =>
        if st3.maxRows < slen st3 then
          match popItem st3 with
          | none => none
          | some (st4, _) => some (st4, item)
        else some (st3, item)
    | some p =>
      let st1 : CacheState TId TObj :=
        { st with
          store := storeModify st.store p (fun it => { it with obj := item, Refreshed := st.now }),
          now := st.now + 1 }
      match st1.store[p]? with
      | none => none
      | some it =>
        match heapFix st1 it.index with
        | none => none
        | some st2 => some (st2, item)

/-- Public method `Push(id, item)`: the lock wrapper around `push`. -/
def cachePushPub (st : CacheState TId TObj) (id : TId) (item : Option TObj) :
    Option (CacheState TId TObj × Option TObj) :=
  cachePush st id item

/-- Method `GetOrAdd(id, fn)`: on a hit returns the stored value; on a
miss invokes the loader once and, when it yields a value, runs the same
`push` path.  The trailing `Nat` instruments the number of loader
invocations (the loader appears at exactly one call site, executed once
per miss), so the at-most-once contract is stated formally. -/
def cacheGetOrAdd (st : CacheState TId TObj) (id : TId) (fn : TId → Option TObj) :
    Option (CacheState TId TObj × Option TObj × Nat) :=
  match mapLookup st.mapItems id with
  | none =>
    let result := fn id
    match result with
    | none => some (st, none, 1)
    | some _ => (cachePush st id result).map (fun r => (r.1, r.2, 1))
  | some p =>
    match st.store[p]? with
    | some it => some (st, it.obj, 0)
    | none => none

/-- Method `Remove(id)`: on a hit, `Swap(findItem.index, len-1)`, store
`nil` into the last slot, `heap.Fix` at `findItem.index` — reading that
field again AFTER `Swap` mutated it through the slice alias — then
truncate and delete from the map; on a miss, return `false`. -/
def cacheRemove (st : CacheState TId TObj) (id : TId) :
    Option (CacheState TId TObj × Bool) :=
  match mapLookup st.mapItems id with
  | none => some (st, false)
  | some p => do
    let it0 ← st.store[p]?
    let n : Int := slen st
    let st1 ← hSwap st it0.index (n - 1)
    let s1 ← sliceSet st1.sliceItems (n - 1) none
    let st2 : CacheState TId TObj := { st1 with sliceItems := s1 }
    let it1 ← st2.store[p]?
    let st3 ← heapFix st2 it1.index
    let s2 ← (if st3.sliceItems.length = 0 then none else some st3.sliceItems.dropLast)
    pure ({ st3 with sliceItems := s2, mapItems := mapDelete st3.mapItems id }, true)

/-- Iterated `Push` over a list of key/value pairs (every value non-nil,
matching the claims about sequences of `Push` calls). -/
def pushSeq (st : CacheState TId TObj) : List (TId × TObj) → Option (CacheState TId TObj)
  | [] => some st
  | (k, v) :: rest =>
    match cachePush st k (some v) with
    | some (st', _) => pushSeq st' rest
    | none => none

/-- Repeatedly call `Pop` until `Len() == 0`, recording each popped
record (the drain loop of the spec's drain property).  Fuel-structural;
callers pass at least the live count. -/
def drainItems : Nat → CacheState TId TObj → Option (List (Item TId TObj))
  | 0, st => if st.mapItems.length = 0 then some [] else none
  | fuel + 1, st =>
    if st.mapItems.length = 0 then some []
    else do
      let (st', it) ← popItem st
      let rest ← drainItems fuel st'
      pure (it :: rest)

end Ops

section Invariants

variable {TId TObj : Type} [DecidableEq TId] [Inhabited TId]

/-- Number of heap slots. -/
def nlen (st : CacheState TId TObj) : Nat := st.sliceItems.length

/-- Pointer stored at heap position `i` (`none` when out of range or the
slot holds Go `nil`). -/
def ptrAt (st : CacheState TId TObj) (i : Nat) : Option Nat :=
  (st.sliceItems[i]?).bind id

/-- Record at heap position `i`. -/
def itemAt (st : CacheState TId TObj) (i : Nat) : Option (Item TId TObj) :=
  (ptrAt st i).bind (fun p => st.store[p]?)

/-- Record at heap position `i`, with a default for unreachable cases. -/
def itemAtD (st : CacheState TId TObj) (i : Nat) : Item TId TObj :=
  (itemAt st i).getD default

/-- Timestamp at heap position `i`. -/
def tsD (st : CacheState TId TObj) (i : Nat) : Int := (itemAtD st i).Refreshed

/-- Key at heap position `i`. -/
def idAtD (st : CacheState TId TObj) (i : Nat) : TId := (itemAtD st i).Id

/-- Identity-irrelevant view of a record: everything except the mutable
heap position. -/
def itemView (it : Item TId TObj) : TId × Int × Option TObj :=
  (it.Id, it.Refreshed, it.obj)

/-- Every heap slot holds a pointer to a live record whose `index` field
agrees with its slot and which the map indexes under its own key. -/
def Linked (st : CacheState TId TObj) : Prop :=
  ∀ i, i < nlen st →
    ∃ p it, st.sliceItems[i]? = some (some p) ∧ st.store[p]? = some it ∧
      it.index = (i : Int) ∧ mapLookup st.mapItems it.Id = some p ∧ it.obj.isSome

/-- No record appears at two heap positions. -/
def PtrInj (st : CacheState TId TObj) : Prop :=
  ∀ i j p, i < nlen st → j < nlen st → ptrAt st i = some p → ptrAt st j = some p → i = j

/-- Every map binding points at a record that sits somewhere in the heap
and carries the binding's key. -/
def MapInto (st : CacheState TId TObj) : Prop :=
  ∀ k p, mapLookup st.mapItems k = some p →
    ∃ i, i < nlen st ∧ ptrAt st i = some p ∧ ∃ it, st.store[p]? = some it ∧ it.Id = k

/-- Pointer `q` occurs in the heap slice. -/
def PtrMem (st : CacheState TId TObj) (q : Nat) : Prop :=
  ∃ i, i < nlen st ∧ ptrAt st i = some q

/-- Parent position in the array-backed binary heap. -/
def par (c : Nat) : Nat := (c - 1) / 2

/-- Heap ordering restricted to the first `n` slots. -/
def HeapOKn (st : CacheState TId TObj) (n : Nat) : Prop :=
  ∀ c, 0 < c → c < n → tsD st (par c) ≤ tsD st c

/-- The invariant set of the spec (section 3) for a cache at rest. -/
structure WF (st : CacheState TId TObj) : Prop where
  linked : Linked st
  inj : PtrInj st
  mapinto : MapInto st
  nodup : (st.mapItems.map Prod.fst).Nodup
  count : st.mapItems.length = nlen st
  heap : HeapOKn st (nlen st)
  fresh : ∀ (p : Nat) (it : Item TId TObj), st.store[p]? = some it → it.Refreshed < st.now

/-- What the heap-repair primitives leave untouched: the map, the clock,
the capacity, both lengths, every record's view, and the set of pointers
sitting in the slice. -/
structure HFrame (st st' : CacheState TId TObj) : Prop where
  map_eq : st'.mapItems = st.mapItems
  now_eq : st'.now = st.now
  max_eq : st'.maxRows = st.maxRows
  len_eq : st'.sliceItems.length = st.sliceItems.length
  store_len : st'.store.length = st.store.length
  pres : ∀ (p : Nat), (st'.store[p]?).map itemView = (st.store[p]?).map itemView
  mem : ∀ (q : Nat), PtrMem st' q ↔ PtrMem st q

theorem HFrame.refl (st : CacheState TId TObj) : HFrame st st :=
  ⟨Eq.refl _, Eq.refl _, Eq.refl _, Eq.refl _, Eq.refl _, fun _ => Eq.refl _, fun _ => Iff.rfl⟩

theorem HFrame.comp {st1 st2 st3 : CacheState TId TObj}
    (h12 : HFrame st1 st2) (h23 : HFrame st2 st3) : HFrame st1 st3 :=
  ⟨h23.map_eq.trans h12.map_eq, h23.now_eq.trans h12.now_eq, h23.max_eq.trans h12.max_eq,
   h23.len_eq.trans h12.len_eq, h23.store_len.trans h12.store_len,
   fun p => (h23.pres p).trans (h12.pres p),
   fun q => (h23.mem q).trans (h12.mem q)⟩

/-- Transposition of two positions. -/
def transp (i j k : Nat) : Nat := if k = i then j else if k = j then i else k

theorem transp_self (i k : Nat) : transp i i k = k := by
  unfold transp; split <;> simp_all

theorem transp_left (i j : Nat) : transp i j i = j := by
  unfold transp; simp

theorem transp_right (i j : Nat) : transp i j j = i := by
  unfold transp
  rcases eq_or_ne j i with h | h <;> simp [h]

theorem transp_other (i j k : Nat) (hki : k ≠ i) (hkj : k ≠ j) : transp i j k = k := by
  unfold transp; simp [hki, hkj]

theorem transp_lt {n i j k : Nat} (hi : i < n) (hj : j < n) (hk : k < n) :
    transp i j k < n := by
  unfold transp; split
  · exact hj
  · split
    · exact hi
    · exact hk

theorem transp_invol (i j k : Nat) : transp i j (transp i j k) = k := by
  unfold transp
  by_cases hki : k = i
  · by_cases hji : j = i <;> simp [hki, hji]
  · by_cases hkj : k = j <;> simp [hki, hkj]

end Invariants

section BasicLemmas

variable {TId TObj : Type} [DecidableEq TId] [Inhabited TId]

theorem mapLookup_assign_self (m : List (TId × Nat)) (k : TId) (p : Nat) :
    mapLookup (mapAssign m k p) k = some p := by
  induction m with
  | nil => simp [mapAssign, mapLookup]
  | cons hd tl ih =>
    obtain ⟨k', p'⟩ := hd
    by_cases h : k' = k
    · simp [mapAssign, mapLookup, h]
    · simp [mapAssign, mapLookup, h, ih]

theorem mapLookup_assign_ne (m : List (TId × Nat)) (k k' : TId) (p : Nat) (h : k' ≠ k) :
    mapLookup (mapAssign m k p) k' = mapLookup m k' := by
  induction m with
  | nil => simp [mapAssign, mapLookup, Ne.symm h]
  | cons hd tl ih =>
    obtain ⟨k0, p0⟩ := hd
    by_cases h0 : k0 = k
    · subst h0
      simp [mapAssign, mapLookup, Ne.symm h]
    · simp only [mapAssign, if_neg h0, mapLookup]
      by_cases h1 : k0 = k'
      · simp [h1]
      · simp [h1, ih]

theorem mapAssign_absent (m : List (TId × Nat)) (k : TId) (p : Nat)
    (h : mapLookup m k = none) : mapAssign m k p = m ++ [(k, p)] := by
  induction m with
  | nil => simp [mapAssign]
  | cons hd tl ih =>
    obtain ⟨k0, p0⟩ := hd
    by_cases h0 : k0 = k
    · simp [mapLookup, h0] at h
    · simp only [mapLookup, if_neg h0] at h
      simp [mapAssign, h0, ih h]

theorem mapLookup_eq_none_iff (m : List (TId × Nat)) (k : TId) :
    mapLookup m k = none ↔ k ∉ m.map Prod.fst := by
  induction m with
  | nil => simp [mapLookup]
  | cons hd tl ih =>
    obtain ⟨k0, p0⟩ := hd
    by_cases h0 : k0 = k
    · simp [mapLookup, h0]
    · simp [mapLookup, h0, ih, Ne.symm h0]

theorem mapDelete_absent (m : List (TId × Nat)) (k : TId)
    (h : mapLookup m k = none) : mapDelete m k = m := by
  induction m with
  | nil => simp [mapDelete]
  | cons hd tl ih =>
    obtain ⟨k0, p0⟩ := hd
    by_cases h0 : k0 = k
    · simp [mapLookup, h0] at h
    · simp only [mapLookup, if_neg h0] at h
      simp [mapDelete, h0, ih h]

theorem mapLookup_delete_ne (m : List (TId × Nat)) (k k' : TId) (h : k' ≠ k) :
    mapLookup (mapDelete m k) k' = mapLookup m k' := by
  induction m with
  | nil => simp [mapDelete]
  | cons hd tl ih =>
    obtain ⟨k0, p0⟩ := hd
    by_cases h0 : k0 = k
    · subst h0
      simp [mapDelete, mapLookup, Ne.symm h]
    · simp only [mapDelete, if_neg h0, mapLookup]
      by_cases h1 : k0 = k'
      · simp [h1]
      · simp [h1, ih]

theorem mapLookup_delete_self (m : List (TId × Nat)) (k : TId)
    (hnd : (m.map Prod.fst).Nodup) : mapLookup (mapDelete m k) k = none := by
  induction m with
  | nil => simp [mapDelete, mapLookup]
  | cons hd tl ih =>
    obtain ⟨k0, p0⟩ := hd
    simp only [List.map_cons, List.nodup_cons] at hnd
    by_cases h0 : k0 = k
    · subst h0
      simp only [mapDelete, if_pos rfl]
      rw [mapLookup_eq_none_iff]
      exact hnd.1
    · simp [mapDelete, h0, mapLookup, ih hnd.2]

theorem mapDelete_length (m : List (TId × Nat)) (k : TId) (p : Nat)
    (h : mapLookup m k = some p) : (mapDelete m k).length + 1 = m.length := by
  induction m with
  | nil => simp [mapLookup] at h
  | cons hd tl ih =>
    obtain ⟨k0, p0⟩ := hd
    by_cases h0 : k0 = k
    · simp [mapDelete, h0]
    · simp only [mapLookup, if_neg h0] at h
      simp [mapDelete, h0, ih h]

theorem mapDelete_keys (m : List (TId × Nat)) (k : TId) :
    (mapDelete m k).map Prod.fst = (m.map Prod.fst).erase k := by
  induction m with
  | nil => simp [mapDelete]
  | cons hd tl ih =>
    obtain ⟨k0, p0⟩ := hd
    by_cases h0 : k0 = k
    · subst h0
      simp [mapDelete, List.erase_cons_head]
    · rw [List.map_cons, List.erase_cons_tail]
      · simp [mapDelete, h0, ih]
      · simp [h0]

theorem mapDelete_nodup (m : List (TId × Nat)) (k : TId)
    (hnd : (m.map Prod.fst).Nodup) : ((mapDelete m k).map Prod.fst).Nodup := by
  rw [mapDelete_keys]
  exact hnd.erase k

theorem mapLookup_isSome_of_mem_keys (m : List (TId × Nat)) (k : TId)
    (h : k ∈ m.map Prod.fst) : (mapLookup m k).isSome := by
  rcases h' : mapLookup m k with _ | p
  · rw [mapLookup_eq_none_iff] at h'
    exact absurd h h'
  · rfl

theorem sliceGet_nat {α : Type} (s : List α) (i : Nat) : sliceGet s (i : Int) = s[i]? := by
  simp [sliceGet]

theorem sliceSet_nat {α : Type} (s : List α) (i : Nat) (a : α) (h : i < s.length) :
    sliceSet s (i : Int) a = some (s.set i a) := by
  unfold sliceSet
  rw [if_pos]
  · simp
  · exact ⟨Int.ofNat_nonneg i, by exact_mod_cast h⟩

theorem storeModify_get_self (store : List (Item TId TObj)) (p : Nat)
    (f : Item TId TObj → Item TId TObj) (it : Item TId TObj) (h : store[p]? = some it) :
    (storeModify store p f)[p]? = some (f it) := by
  unfold storeModify
  rw [h]
  have hp : p < store.length := (List.getElem?_eq_some.mp h).1
  rw [List.getElem?_set_self', h]
  rfl

theorem storeModify_get_ne (store : List (Item TId TObj)) (p q : Nat)
    (f : Item TId TObj → Item TId TObj) (h : q ≠ p) :
    (storeModify store p f)[q]? = store[q]? := by
  unfold storeModify
  rcases h' : store[p]? with _ | it
  · rfl
  · exact List.getElem?_set_ne (fun hh => h hh.symm)

theorem storeModify_length (store : List (Item TId TObj)) (p : Nat)
    (f : Item TId TObj → Item TId TObj) :
    (storeModify store p f).length = store.length := by
  unfold storeModify
  rcases store[p]? with _ | it <;> simp

end BasicLemmas

section SwapLemmas

variable {TId TObj : Type} [DecidableEq TId] [Inhabited TId]

theorem slen_eq_nlen (st : CacheState TId TObj) : slen st = (nlen st : Int) := rfl

theorem Linked.spec {st : CacheState TId TObj} (hl : Linked st) {i : Nat} (h : i < nlen st) :
    ∃ p it, st.sliceItems[i]? = some (some p) ∧ ptrAt st i = some p ∧
      st.store[p]? = some it ∧ itemAt st i = some it ∧ itemAtD st i = it ∧
      it.index = (i : Int) ∧ mapLookup st.mapItems it.Id = some p ∧ it.obj.isSome := by
  obtain ⟨p, it, h1, h2, h3, h4, h5⟩ := hl i h
  have hp : ptrAt st i = some p := by simp [ptrAt, h1]
  have hit : itemAt st i = some it := by simp [itemAt, hp, h2]
  exact ⟨p, it, h1, hp, h2, hit, by simp [itemAtD, hit], h3, h4, h5⟩

theorem view_refreshed {a b : Option (Item TId TObj)}
    (h : a.map itemView = b.map itemView) :
    (a.getD default).Refreshed = (b.getD default).Refreshed := by
  rcases a with _ | x <;> rcases b with _ | y <;> simp_all [itemView]

theorem view_id {a b : Option (Item TId TObj)}
    (h : a.map itemView = b.map itemView) :
    (a.getD default).Id = (b.getD default).Id := by
  rcases a with _ | x <;> rcases b with _ | y <;> simp_all [itemView]

theorem hLess_eq {st : CacheState TId TObj} (hl : Linked st) {i j : Nat}
    (hi : i < nlen st) (hj : j < nlen st) :
    hLess st (i : Int) (j : Int) = some (decide (tsD st i < tsD st j)) := by
  obtain ⟨pi, iti, hs_i, hp_i, hst_i, hit_i, hd_i, _, _, _⟩ := hl.spec hi
  obtain ⟨pj, itj, hs_j, hp_j, hst_j, hit_j, hd_j, _, _, _⟩ := hl.spec hj
  simp [hLess, sliceGet_nat, hs_i, hs_j, hst_i, hst_j, tsD, hd_i, hd_j]

/-- Behaviour of `HeapedCacheItems.Swap` on two valid positions: the two
slots are transposed, the two records' `index` fields are repaired, and
nothing else changes. -/
theorem hSwap_spec (st : CacheState TId TObj) (i j : Nat)
    (hl : Linked st) (hinj : PtrInj st) (hi : i < nlen st) (hj : j < nlen st) :
    ∃ st', hSwap st (i : Int) (j : Int) = some st' ∧ HFrame st st' ∧ Linked st' ∧ PtrInj st' ∧
      (∀ k, ptrAt st' k = ptrAt st (transp i j k)) ∧
      (∀ k, (itemAt st' k).map itemView = (itemAt st (transp i j k)).map itemView) := by
  by_cases hij : i = j
  · subst hij
    refine ⟨st, by simp [hSwap], HFrame.refl st, hl, hinj, ?_, ?_⟩ <;>
      intro k <;> rw [transp_self]
  · have hij' : (i : Int) ≠ (j : Int) := by exact_mod_cast hij
    obtain ⟨pi, iti, hs_i, hp_i, hst_i, _, _, hidx_i, hmap_i, hobj_i⟩ := hl.spec hi
    obtain ⟨pj, itj, hs_j, hp_j, hst_j, _, _, hidx_j, hmap_j, hobj_j⟩ := hl.spec hj
    have hpij : pi ≠ pj := by
      intro hh
      exact hij (hinj i j pi hi hj hp_i (hh ▸ hp_j))
    set s1 := st.sliceItems.set i (some pj) with hs1def
    set s2 := s1.set j (some pi) with hs2def
    have hlen1 : s1.length = st.sliceItems.length := List.length_set _ _ _
    have hlen2 : s2.length = st.sliceItems.length := by
      rw [hs2def, List.length_set, hlen1]
    set store1 := storeModify st.store pj (fun it => { it with index := (i : Int) })
      with hstore1
    set store2 := storeModify store1 pi (fun it => { it with index := (j : Int) })
      with hstore2
    set st' : CacheState TId TObj := { st with sliceItems := s2, store := store2 } with hst'
    have hget_i : sliceGet st.sliceItems (i : Int) = some (some pi) := by
      rw [sliceGet_nat]; exact hs_i
    have hget_j : sliceGet st.sliceItems (j : Int) = some (some pj) := by
      rw [sliceGet_nat]; exact hs_j
    have hset1 : sliceSet st.sliceItems (i : Int) (some pj) = some s1 :=
      sliceSet_nat _ _ _ hi
    have hset2 : sliceSet s1 (j : Int) (some pi) = some s2 :=
      sliceSet_nat _ _ _ (by rw [hlen1]; exact hj)
    have hrun : hSwap st (i : Int) (j : Int) = some st' := by
      rw [hSwap, if_neg hij']
      simp [hget_i, hget_j, hset1, hset2, ← hstore1, ← hstore2, hst']
    have hslot : ∀ k : Nat, s2[k]? = st.sliceItems[transp i j k]? := by
      intro k
      by_cases hki : k = i
      · subst hki
        rw [transp_left, hs2def, List.getElem?_set_ne (Ne.symm hij), hs1def,
          List.getElem?_set_self', hs_i, hs_j]
        rfl
      · by_cases hkj : k = j
        · subst hkj
          rw [transp_right, hs2def, List.getElem?_set_self', hs1def,
            List.getElem?_set_ne hij, hs_j, hs_i]
          rfl
        · rw [transp_other i j k hki hkj, hs2def, List.getElem?_set_ne (Ne.symm hkj), hs1def,
            List.getElem?_set_ne (Ne.symm hki)]
    have hnlen' : nlen st' = nlen st := hlen2
    have hptr : ∀ k, ptrAt st' k = ptrAt st (transp i j k) := by
      intro k
      simp only [ptrAt, hst']
      rw [hslot]
    -- the arena after the two index-field writes
    have hst2_pi : store2[pi]? = some { iti with index := (j : Int) } := by
      rw [hstore2]
      refine storeModify_get_self _ _ _ _ ?_
      rw [hstore1, storeModify_get_ne _ _ _ _ hpij]
      exact hst_i
    have hst2_pj : store2[pj]? = some { itj with index := (i : Int) } := by
      rw [hstore2, storeModify_get_ne _ _ _ _ (Ne.symm hpij), hstore1]
      exact storeModify_get_self _ _ _ _ hst_j
    have hst2_other : ∀ q, q ≠ pi → q ≠ pj → store2[q]? = st.store[q]? := by
      intro q h1 h2
      rw [hstore2, storeModify_get_ne _ _ _ _ h1, hstore1, storeModify_get_ne _ _ _ _ h2]
    have hpres : ∀ (q : Nat), (store2[q]?).map itemView = (st.store[q]?).map itemView := by
      intro q
      by_cases h1 : q = pi
      · subst h1
        rw [hst2_pi, hst_i]
        rfl
      · by_cases h2 : q = pj
        · subst h2
          rw [hst2_pj, hst_j]
          rfl
        · rw [hst2_other q h1 h2]
    have hview : ∀ k, (itemAt st' k).map itemView = (itemAt st (transp i j k)).map itemView := by
      intro k
      simp only [itemAt, hptr]
      rcases ptrAt st (transp i j k) with _ | q
      · rfl
      · exact hpres q
    have hlinked' : Linked st' := by
      intro k hk
      rw [hnlen'] at hk
      by_cases hki : k = i
      · subst hki
        refine ⟨pj, { itj with index := (k : Int) }, ?_, ?_, rfl, hmap_j, hobj_j⟩
        · show s2[k]? = some (some pj)
          rw [hslot, transp_left, hs_j]
        · show store2[pj]? = some _
          rw [hst2_pj]
      · by_cases hkj : k = j
        · subst hkj
          refine ⟨pi, { iti with index := (k : Int) }, ?_, ?_, rfl, hmap_i, hobj_i⟩
          · show s2[k]? = some (some pi)
            rw [hslot, transp_right, hs_i]
          · show store2[pi]? = some _
            rw [hst2_pi]
        · obtain ⟨q, it, hq1, hq2, hq3, hq4, hq5⟩ := hl k hk
          have hqp : ptrAt st k = some q := by simp [ptrAt, hq1]
          have hqi : q ≠ pi := fun hh => hki (hinj k i q hk hi hqp (hh ▸ hp_i))
          have hqj : q ≠ pj := fun hh => hkj (hinj k j q hk hj hqp (hh ▸ hp_j))
          refine ⟨q, it, ?_, ?_, hq3, hq4, hq5⟩
          · show s2[k]? = some (some q)
            rw [hslot, transp_other i j k hki hkj, hq1]
          · show store2[q]? = some it
            rw [hst2_other q hqi hqj, hq2]
    have hinj' : PtrInj st' := by
      intro k1 k2 q hk1 hk2 hq1 hq2
      rw [hnlen'] at hk1 hk2
      rw [hptr] at hq1 hq2
      have := hinj _ _ q (transp_lt hi hj hk1) (transp_lt hi hj hk2) hq1 hq2
      have h1 := congrArg (transp i j) this
      rwa [transp_invol, transp_invol] at h1
    have hmem : ∀ (q : Nat), PtrMem st' q ↔ PtrMem st q := by
      intro q
      constructor
      · rintro ⟨k, hk, hp⟩
        rw [hnlen'] at hk
        rw [hptr] at hp
        exact ⟨transp i j k, transp_lt hi hj hk, hp⟩
      · rintro ⟨k, hk, hp⟩
        refine ⟨transp i j k, ?_, ?_⟩
        · rw [hnlen']
          exact transp_lt hi hj hk
        · rw [hptr, transp_invol]
          exact hp
    have hframe : HFrame st st' := by
      refine ⟨rfl, rfl, rfl, hlen2, ?_, hpres, hmem⟩
      show store2.length = st.store.length
      rw [hstore2, storeModify_length, hstore1, storeModify_length]
    exact ⟨st', hrun, hframe, hlinked', hinj', hptr, hview⟩

end SwapLemmas

section UpDownLemmas

variable {TId TObj : Type} [DecidableEq TId] [Inhabited TId]

theorem par_lt {c : Nat} (h : 0 < c) : par c < c := by
  unfold par
  omega

theorem par_left (i : Nat) : par (2 * i + 1) = i := by
  unfold par
  omega

theorem par_right (i : Nat) : par (2 * i + 2) = i := by
  unfold par
  omega

theorem child_bounds {c i : Nat} (hc : 0 < c) (h : par c = i) :
    2 * i + 1 ≤ c ∧ c ≤ 2 * i + 2 := by
  unfold par at h
  omega

theorem child_pos {c i : Nat} (hi : 0 < i) (h : par c = i) : 0 < c := by
  rcases Nat.eq_zero_or_pos c with h0 | h0
  · subst h0
    unfold par at h
    omega
  · exact h0

theorem tdiv_parent (j : Nat) (h : 0 < j) :
    Int.tdiv ((j : Int) - 1) 2 = ((par j : Nat) : Int) := by
  have h1 : ((j : Int) - 1) = ((j - 1 : Nat) : Int) := by omega
  rw [h1]
  rfl

theorem tsD_of_view {st st' : CacheState TId TObj} {k k' : Nat}
    (h : (itemAt st' k).map itemView = (itemAt st k').map itemView) :
    tsD st' k = tsD st k' :=
  view_refreshed h

/-- Precondition of `up(h, j)`: the heap ordering holds everywhere except
possibly on the edge into `j`, and `j`'s parent already dominates `j`'s
children. -/
def UpPre (st : CacheState TId TObj) (j : Nat) : Prop :=
  (∀ c, 0 < c → c < nlen st → c ≠ j → tsD st (par c) ≤ tsD st c) ∧
  (0 < j → ∀ c, c < nlen st → par c = j → tsD st (par j) ≤ tsD st c)

/-- Correctness of the `container/heap.up` loop: with sufficient fuel and
the sift-up precondition it terminates, permutes only heap slots, and
restores the full heap ordering. -/
theorem upLoop_spec : ∀ (fuel : Nat) (st : CacheState TId TObj) (j : Nat),
    j < fuel → j < nlen st → Linked st → PtrInj st → UpPre st j →
    ∃ st', upLoop fuel st (j : Int) = some st' ∧ HFrame st st' ∧ Linked st' ∧
      PtrInj st' ∧ HeapOKn st' (nlen st') := by
  intro fuel
  induction fuel with
  | zero => intro st j hj; omega
  | succ fuel ih =>
    intro st j hfuel hj hl hinj hpre
    by_cases hj0 : j = 0
    · subst hj0
      refine ⟨st, ?_, HFrame.refl st, hl, hinj, ?_⟩
      · rw [upLoop]
        rw [if_pos (by decide : Int.tdiv (((0 : Nat) : Int) - 1) 2 = ((0 : Nat) : Int))]
      · intro c hc hcn
        exact hpre.1 c hc hcn (Nat.pos_iff_ne_zero.mp hc)
    · have hj0' : 0 < j := Nat.pos_of_ne_zero hj0
      have hpj : par j < j := par_lt hj0'
      have hpn : par j < nlen st := Nat.lt_trans hpj hj
      have hpar_int : Int.tdiv ((j : Int) - 1) 2 = ((par j : Nat) : Int) := tdiv_parent j hj0'
      have hne : ((par j : Nat) : Int) ≠ (j : Int) := by
        exact_mod_cast Nat.ne_of_lt hpj
      have hless := hLess_eq hl hj hpn
      by_cases hlt : tsD st j < tsD st (par j)
      · -- the element still rises: swap with the parent and loop there
        obtain ⟨st1, hrun1, hfr1, hl1, hinj1, hptr1, hview1⟩ :=
          hSwap_spec st (par j) j hl hinj hpn hj
        have hts1 : ∀ k, tsD st1 k = tsD st (transp (par j) j k) :=
          fun k => tsD_of_view (hview1 k)
        have hnlen1 : nlen st1 = nlen st := hfr1.len_eq
        have hpre1 : UpPre st1 (par j) := by
          constructor
          · intro c hc hcn hcp
            rw [hnlen1] at hcn
            rw [hts1, hts1]
            by_cases hcj : c = j
            · rw [hcj, transp_left, transp_right]
              exact le_of_lt hlt
            · rw [transp_other _ _ _ hcp hcj]
              by_cases hpc : par c = par j
              · rw [hpc, transp_left]
                have h1 := hpre.1 c hc hcn hcj
                rw [hpc] at h1
                exact le_trans (le_of_lt hlt) h1
              · by_cases hpc2 : par c = j
                · rw [hpc2, transp_right]
                  exact hpre.2 hj0' c hcn hpc2
                · rw [transp_other _ _ _ hpc hpc2]
                  exact hpre.1 c hc hcn hcj
          · intro hp0 c hcn hpc
            rw [hnlen1] at hcn
            rw [hts1, hts1]
            have hppp : par (par j) < par j := par_lt hp0
            rw [transp_other _ _ _ (Nat.ne_of_lt hppp) (Nat.ne_of_lt (Nat.lt_trans hppp hpj))]
            have hdom : tsD st (par (par j)) ≤ tsD st (par j) :=
              hpre.1 (par j) hp0 hpn (Nat.ne_of_lt hpj)
            by_cases hcj : c = j
            · rw [hcj, transp_right]
              exact hdom
            · have hcp : c ≠ par j := by
                intro hh
                rw [hh] at hpc
                exact absurd hpc (Nat.ne_of_lt hppp)
              rw [transp_other _ _ _ hcp hcj]
              have hc0 : 0 < c := child_pos hp0 hpc
              have h2 := hpre.1 c hc0 hcn hcj
              rw [hpc] at h2
              exact le_trans hdom h2
        obtain ⟨st2, hrun2, hfr2, hl2, hinj2, hheap2⟩ :=
          ih st1 (par j) (by omega) (by rw [hnlen1]; exact hpn) hl1 hinj1 hpre1
        refine ⟨st2, ?_, hfr1.comp hfr2, hl2, hinj2, hheap2⟩
        rw [upLoop]
        simp only [hpar_int]
        rw [if_neg hne]
        simp [hless, hlt, hrun1, hrun2]
      · -- the parent already dominates: the loop stops, heap restored
        refine ⟨st, ?_, HFrame.refl st, hl, hinj, ?_⟩
        · rw [upLoop]
          simp only [hpar_int]
          rw [if_neg hne]
          simp [hless, hlt]
        · intro c hc hcn
          by_cases hcj : c = j
          · subst hcj
            exact not_lt.mp hlt
          · exact hpre.1 c hc hcn hcj

/-- Precondition of `down(h, i, n)`: the heap ordering holds on the first
`n` slots except possibly on the edges out of `i`, and `i`'s parent
already dominates `i`'s children. -/
def DownPre (st : CacheState TId TObj) (i n : Nat) : Prop :=
  (∀ c, 0 < c → c < n → par c ≠ i → tsD st (par c) ≤ tsD st c) ∧
  (0 < i → ∀ c, c < n → par c = i → tsD st (par i) ≤ tsD st c)

/-- Correctness of the `container/heap.down` loop: with sufficient fuel
and the sift-down precondition it terminates at a position no smaller
than the start, permutes only slots below `n`, and restores the heap
ordering on the first `n` slots. -/
theorem downLoop_spec : ∀ (fuel : Nat) (st : CacheState TId TObj) (i n : Nat),
    n ≤ fuel + i → i < n → n ≤ nlen st → Linked st → PtrInj st → DownPre st i n →
    ∃ st' iEnd, downLoop fuel st (i : Int) (n : Int) = some (st', ((iEnd : Nat) : Int)) ∧
      i ≤ iEnd ∧ (iEnd = i → st' = st) ∧ HFrame st st' ∧ Linked st' ∧ PtrInj st' ∧
      HeapOKn st' n ∧
      (∀ k, n ≤ k → ptrAt st' k = ptrAt st k ∧
        (itemAt st' k).map itemView = (itemAt st k).map itemView) := by
  intro fuel
  induction fuel with
  | zero => intro st i n hfuel hin; omega
  | succ fuel ih =>
    intro st i n hfuel hin hnn hl hinj hpre
    by_cases hleaf : n ≤ 2 * i + 1
    · -- no child below the bound: immediate exit, heap already restored
      refine ⟨st, i, ?_, le_refl i, fun _ => rfl, HFrame.refl st, hl, hinj, ?_, ?_⟩
      · rw [downLoop]
        rw [if_pos (Or.inl (by exact_mod_cast hleaf))]
      · intro c hc hcn
        by_cases hpc : par c = i
        · exact absurd (child_bounds hc hpc).1 (by omega)
        · exact hpre.1 c hc hcn hpc
      · intro k _
        exact ⟨rfl, rfl⟩
    · have hchild : 2 * i + 1 < n := Nat.lt_of_not_le hleaf
      have hcond : ¬((n : Int) ≤ 2 * (i : Int) + 1 ∨ 2 * (i : Int) + 1 < 0) := by
        push_cast
        omega
      -- select the smaller child, exactly as the source does
      obtain ⟨jn, hsel, hparjn, hlo, hhi, hmin⟩ :
          ∃ jn : Nat,
            downSelect st (2 * (i : Int) + 1) (n : Int) = some ((jn : Nat) : Int) ∧
            par jn = i ∧ 2 * i + 1 ≤ jn ∧ jn < n ∧
            ∀ c, 0 < c → c < n → par c = i → tsD st jn ≤ tsD st c := by
        have e2 : 2 * (i : Int) + 1 + 1 = ((2 * i + 2 : Nat) : Int) := by push_cast; ring
        have e1 : 2 * (i : Int) + 1 = ((2 * i + 1 : Nat) : Int) := by push_cast; ring
        rw [downSelect]
        by_cases hj2 : 2 * i + 2 < n
        · have hcond2 : 2 * (i : Int) + 1 + 1 < (n : Int) := by push_cast; omega
          -- both children exist: Less picks the strictly smaller right child
          rw [if_pos hcond2, e2, e1,
            hLess_eq hl (lt_of_lt_of_le hj2 hnn) (lt_of_lt_of_le hchild hnn)]
          by_cases hpick : tsD st (2 * i + 2) < tsD st (2 * i + 1)
          · refine ⟨2 * i + 2, by simp [hpick, e2, ← e1], par_right i, by omega, hj2, ?_⟩
            intro c hc0 hcn hpc
            obtain ⟨hb1, hb2⟩ := child_bounds hc0 hpc
            have hc12 : c = 2 * i + 1 ∨ c = 2 * i + 2 := by omega
            rcases hc12 with h | h <;> rw [h]
            exact le_of_lt hpick
          · refine ⟨2 * i + 1, by simp [hpick], par_left i, le_refl _, hchild, ?_⟩
            intro c hc0 hcn hpc
            obtain ⟨hb1, hb2⟩ := child_bounds hc0 hpc
            have hc12 : c = 2 * i + 1 ∨ c = 2 * i + 2 := by omega
            rcases hc12 with h | h <;> rw [h]
            exact not_lt.mp hpick
        · have hcond2 : ¬(2 * (i : Int) + 1 + 1 < (n : Int)) := by push_cast; omega
          rw [if_neg hcond2, e1]
          refine ⟨2 * i + 1, rfl, par_left i, le_refl _, hchild, ?_⟩
          intro c hc0 hcn hpc
          obtain ⟨hb1, hb2⟩ := child_bounds hc0 hpc
          have hc1 : c = 2 * i + 1 := by omega
          rw [hc1]
      have hjn_pos : 0 < jn := by omega
      have hjn_nlen : jn < nlen st := lt_of_lt_of_le hhi hnn
      have hi_nlen : i < nlen st := lt_of_lt_of_le hin hnn
      have hij_ne : i ≠ jn := by omega
      have hless2 := hLess_eq hl hjn_nlen hi_nlen
      by_cases hlt2 : tsD st jn < tsD st i
      · -- the element sinks: swap with the smaller child and loop
        obtain ⟨st1, hrun1, hfr1, hl1, hinj1, hptr1, hview1⟩ :=
          hSwap_spec st i jn hl hinj hi_nlen hjn_nlen
        have hts1 : ∀ k, tsD st1 k = tsD st (transp i jn k) :=
          fun k => tsD_of_view (hview1 k)
        have hnlen1 : nlen st1 = nlen st := hfr1.len_eq
        have hpre1 : DownPre st1 jn n := by
          constructor
          · intro c hc hcn hpcj
            rw [hts1, hts1]
            by_cases hcj : c = jn
            · rw [hcj, hparjn, transp_left, transp_right]
              exact le_of_lt hlt2
            · by_cases hci : c = i
              · rw [hci]
                have hi0 : 0 < i := hci ▸ hc
                have hpi : par i < i := par_lt hi0
                rw [transp_other _ _ _ (Nat.ne_of_lt hpi) (Nat.ne_of_lt (lt_of_lt_of_le hpi (by omega))), transp_left]
                exact hpre.2 hi0 jn hhi hparjn
              · rw [transp_other _ _ _ hci hcj]
                by_cases hpc : par c = i
                · rw [hpc, transp_left]
                  exact hmin c hc hcn hpc
                · rw [transp_other _ _ _ hpc hpcj]
                  exact hpre.1 c hc hcn hpc
          · intro hjn0 c hcn hpc
            rw [hts1, hts1, hparjn, transp_left]
            have hc0 : 0 < c := child_pos hjn0 hpc
            have hcgt : jn < c := by
              have := child_bounds hc0 hpc
              omega
            have hci : c ≠ i := by omega
            have hcj : c ≠ jn := by omega
            rw [transp_other _ _ _ hci hcj]
            have hpcne : par c ≠ i := by
              rw [hpc]
              omega
            have h1 := hpre.1 c hc0 hcn hpcne
            rw [hpc] at h1
            exact h1
        obtain ⟨st2, iEnd, hrun2, hEnd1, _, hfr2, hl2, hinj2, hheap2, hout2⟩ :=
          ih st1 jn n (by omega) hhi (by rw [hnlen1]; exact hnn) hl1 hinj1 hpre1
        refine ⟨st2, iEnd, ?_, by omega, fun hEq => absurd hEq (by omega), hfr1.comp hfr2,
          hl2, hinj2, hheap2, ?_⟩
        · rw [downLoop]
          rw [if_neg hcond]
          rw [hsel]
          rw [show ∀ o : Option Int, ∀ f : Int → Option (CacheState TId TObj × Int),
              o >>= f = o.bind f from fun _ _ => rfl]
          simp only [Option.some_bind]
          rw [hless2]
          simp [hlt2, hrun1, hrun2]
        · intro k hk
          have hki : k ≠ i := by omega
          have hkj : k ≠ jn := by omega
          obtain ⟨ho1, ho2⟩ := hout2 k hk
          refine ⟨?_, ?_⟩
          · rw [ho1, hptr1 k, transp_other _ _ _ hki hkj]
          · rw [ho2, hview1 k, transp_other _ _ _ hki hkj]
      · -- the smaller child already dominates: exit, heap restored
        refine ⟨st, i, ?_, le_refl i, fun _ => rfl, HFrame.refl st, hl, hinj, ?_, ?_⟩
        · rw [downLoop]
          rw [if_neg hcond]
          rw [hsel]
          rw [show ∀ o : Option Int, ∀ f : Int → Option (CacheState TId TObj × Int),
              o >>= f = o.bind f from fun _ _ => rfl]
          simp only [Option.some_bind]
          rw [hless2]
          simp [hlt2]
        · intro c hc hcn
          by_cases hpc : par c = i
          · rw [hpc]
            exact le_trans (not_lt.mp hlt2) (hmin c hc hcn hpc)
          · exact hpre.1 c hc hcn hpc
        · intro k _
          exact ⟨rfl, rfl⟩

/-- The loop of `up` stops at once when the parent already dominates. -/
theorem upLoop_exit (fuel : Nat) (st : CacheState TId TObj) (u : Nat)
    (hl : Linked st) (hu : u < nlen st)
    (hstop : 0 < u → ¬ tsD st u < tsD st (par u)) :
    upLoop (fuel + 1) st (u : Int) = some st := by
  by_cases h0 : u = 0
  · subst h0
    rw [upLoop]
    rw [if_pos (by decide : Int.tdiv (((0 : Nat) : Int) - 1) 2 = ((0 : Nat) : Int))]
  · have h0' : 0 < u := Nat.pos_of_ne_zero h0
    have hpu : par u < u := par_lt h0'
    rw [upLoop]
    simp only [tdiv_parent u h0']
    rw [if_neg (by exact_mod_cast Nat.ne_of_lt hpu)]
    rw [hLess_eq hl hu (Nat.lt_trans hpu hu)]
    simp [hstop h0']

/-- The loop of `down` stops at once when the bound admits no child. -/
theorem downLoop_exit (fuel : Nat) (st : CacheState TId TObj) (i n : Nat)
    (h : n ≤ 2 * i + 1) :
    downLoop (fuel + 1) st (i : Int) (n : Int) = some (st, (i : Int)) := by
  rw [downLoop]
  rw [if_pos (Or.inl (by exact_mod_cast h))]

/-- In a heap the root carries the smallest timestamp. -/
theorem root_min (st : CacheState TId TObj) (n : Nat) (hheap : HeapOKn st n) :
    ∀ j, j < n → tsD st 0 ≤ tsD st j := by
  intro j
  induction j using Nat.strong_induction_on with
  | _ j ih =>
    intro hj
    rcases Nat.eq_zero_or_pos j with h0 | h0
    · subst h0
      exact le_refl _
    · exact le_trans (ih (par j) (par_lt h0) (Nat.lt_trans (par_lt h0) hj))
        (hheap j h0 hj)

/-- Records reached through the same pointer in view-preserving states
carry the same timestamp. -/
theorem refreshed_match {st st' : CacheState TId TObj}
    (hpres : ∀ (q : Nat), (st'.store[q]?).map itemView = (st.store[q]?).map itemView)
    {k j q : Nat} (h1 : ptrAt st' k = some q) (h2 : ptrAt st j = some q) :
    tsD st' k = tsD st j := by
  have e1 : itemAt st' k = st'.store[q]? := by rw [itemAt, h1]; rfl
  have e2 : itemAt st j = st.store[q]? := by rw [itemAt, h2]; rfl
  apply view_refreshed
  rw [e1, e2]
  exact hpres q

/-- Correctness of `heap.Fix` at a position whose key has changed but
whose parent edge is already satisfied (the situation created by the
update path of `push`, where the new timestamp is maximal). -/
theorem heapFix_spec (st : CacheState TId TObj) (u : Nat)
    (hl : Linked st) (hinj : PtrInj st) (hu : u < nlen st)
    (h1 : ∀ c, 0 < c → c < nlen st → c ≠ u → par c ≠ u → tsD st (par c) ≤ tsD st c)
    (h2 : 0 < u → ∀ c, c < nlen st → par c = u → tsD st (par u) ≤ tsD st c)
    (h3 : 0 < u → tsD st (par u) ≤ tsD st u) :
    ∃ st', heapFix st (u : Int) = some st' ∧ HFrame st st' ∧ Linked st' ∧ PtrInj st' ∧
      HeapOKn st' (nlen st') := by
  have hpre : DownPre st u (nlen st) := by
    constructor
    · intro c hc hcn hpc
      by_cases hcu : c = u
      · rw [hcu]
        exact h3 (hcu ▸ hc)
      · exact h1 c hc hcn hcu hpc
    · exact h2
  obtain ⟨st1, iEnd, hrun1, hle, hEq, hfr1, hl1, hinj1, hheap1, _⟩ :=
    downLoop_spec (st.sliceItems.length + 1) st u (nlen st)
      (by show nlen st ≤ nlen st + 1 + u; omega) hu (le_refl _) hl hinj hpre
  have hnlen1 : nlen st1 = nlen st := hfr1.len_eq
  by_cases hmoved : u < iEnd
  · refine ⟨st1, ?_, hfr1, hl1, hinj1, by rw [hnlen1]; exact hheap1⟩
    simp only [heapFix, slen_eq_nlen]
    rw [hrun1]
    simp [Nat.cast_lt, hmoved]
  · have hEq' : iEnd = u := le_antisymm (not_lt.mp hmoved) hle
    have hst1 : st1 = st := hEq hEq'
    refine ⟨st, ?_, HFrame.refl st, hl, hinj, fun c hc hcn => hst1 ▸ hheap1 c hc hcn⟩
    simp only [heapFix, slen_eq_nlen]
    rw [hrun1]
    simp [Nat.cast_lt, hmoved]
    rw [hst1]
    exact upLoop_exit u st u hl hu (fun h0 => not_lt.mpr (h3 h0))

/-- Correctness of `heap.Push` on a freshly allocated record: the record
is appended at the last position (its `index` field was created equal to
the old length) and sifted up. -/
theorem heapPushGo_spec (st : CacheState TId TObj) (p : Nat) (itNew : Item TId TObj)
    (hl : Linked st) (hinj : PtrInj st) (hheap : HeapOKn st (nlen st))
    (hstp : st.store[p]? = some itNew) (hidx : itNew.index = ((nlen st : Nat) : Int))
    (hmapx : mapLookup st.mapItems itNew.Id = some p) (hobj : itNew.obj.isSome)
    (hfreshp : ¬ PtrMem st p) :
    ∃ st', heapPushGo st p = some st' ∧ Linked st' ∧ PtrInj st' ∧
      HeapOKn st' (nlen st') ∧ nlen st' = nlen st + 1 ∧
      st'.mapItems = st.mapItems ∧ st'.now = st.now ∧ st'.maxRows = st.maxRows ∧
      st'.store.length = st.store.length ∧
      (∀ (q : Nat), (st'.store[q]?).map itemView = (st.store[q]?).map itemView) ∧
      (∀ (q : Nat), PtrMem st' q ↔ PtrMem st q ∨ q = p) := by
  set m := nlen st with hm
  set st1 : CacheState TId TObj := { st with sliceItems := st.sliceItems ++ [some p] }
    with hst1
  have hnlen1 : nlen st1 = m + 1 := by
    show (st.sliceItems ++ [some p]).length = m + 1
    simp [hm, nlen]
  have hslot1 : ∀ k, k < m → st1.sliceItems[k]? = st.sliceItems[k]? := by
    intro k hk
    show (st.sliceItems ++ [some p])[k]? = st.sliceItems[k]?
    rw [List.getElem?_append]
    rw [if_pos (show k < st.sliceItems.length from hk)]
  have hslotm : st1.sliceItems[m]? = some (some p) := by
    show (st.sliceItems ++ [some p])[st.sliceItems.length]? = some (some p)
    exact List.getElem?_concat_length _ _
  have hptr1 : ∀ k, k < m → ptrAt st1 k = ptrAt st k := by
    intro k hk
    rw [ptrAt, ptrAt, hslot1 k hk]
  have hptrm : ptrAt st1 m = some p := by
    rw [ptrAt, hslotm]
    rfl
  have hts1 : ∀ k, k < m → tsD st1 k = tsD st k := by
    intro k hk
    have : itemAt st1 k = itemAt st k := by
      rw [itemAt, itemAt, hptr1 k hk]
    rw [tsD, tsD, itemAtD, itemAtD, this]
  have hl1 : Linked st1 := by
    intro k hk
    rw [hnlen1] at hk
    rcases Nat.lt_or_ge k m with hkm | hkm
    · obtain ⟨q, it, hq1, hq2, hq3, hq4, hq5⟩ := hl k hkm
      exact ⟨q, it, by rw [hslot1 k hkm]; exact hq1, hq2, hq3, hq4, hq5⟩
    · have hk' : k = m := by omega
      subst hk'
      exact ⟨p, itNew, hslotm, hstp, hidx, hmapx, hobj⟩
  have hinj1 : PtrInj st1 := by
    intro k1 k2 q hk1 hk2 hq1 hq2
    rw [hnlen1] at hk1 hk2
    rcases Nat.lt_or_ge k1 m with h1 | h1 <;> rcases Nat.lt_or_ge k2 m with h2 | h2
    · rw [hptr1 k1 h1] at hq1
      rw [hptr1 k2 h2] at hq2
      exact hinj k1 k2 q h1 h2 hq1 hq2
    · have hk2' : k2 = m := by omega
      subst hk2'
      rw [hptr1 k1 h1] at hq1
      rw [hptrm] at hq2
      have hpq : p = q := Option.some_injective _ hq2
      exact absurd ⟨k1, h1, hq1.trans (congrArg some hpq.symm)⟩ hfreshp
    · have hk1' : k1 = m := by omega
      subst hk1'
      rw [hptr1 k2 h2] at hq2
      rw [hptrm] at hq1
      have hpq : p = q := Option.some_injective _ hq1
      exact absurd ⟨k2, h2, hq2.trans (congrArg some hpq.symm)⟩ hfreshp
    · omega
  have hpre1 : UpPre st1 m := by
    constructor
    · intro c hc hcn hcm
      rw [hnlen1] at hcn
      have hcm' : c < m := by omega
      have hpcm : par c < m := Nat.lt_trans (par_lt hc) hcm'
      rw [hts1 c hcm', hts1 (par c) hpcm]
      exact hheap c hc hcm'
    · intro hm0 c hcn hpc
      rw [hnlen1] at hcn
      have := (child_bounds (child_pos hm0 hpc) hpc).1
      omega
  obtain ⟨st2, hrun2, hfr2, hl2, hinj2, hheap2⟩ :=
    upLoop_spec (m + 1) st1 m (by omega) (by omega) hl1 hinj1 hpre1
  refine ⟨st2, ?_, hl2, hinj2, hheap2, ?_, ?_, ?_, ?_, ?_, ?_, ?_⟩
  · show upLoop ((slen st1 - 1).toNat + 1) st1 (slen st1 - 1) = some st2
    have e1 : slen st1 - 1 = ((m : Nat) : Int) := by
      rw [slen_eq_nlen, hnlen1]
      push_cast
      ring
    rw [e1]
    rw [show (((m : Nat) : Int)).toNat = m from Int.toNat_natCast m]
    exact hrun2
  · show st2.sliceItems.length = m + 1
    rw [hfr2.len_eq]
    exact hnlen1
  · exact hfr2.map_eq
  · exact hfr2.now_eq
  · exact hfr2.max_eq
  · exact hfr2.store_len
  · exact hfr2.pres
  · intro q
    rw [hfr2.mem q]
    constructor
    · rintro ⟨k, hk, hq⟩
      rw [hnlen1] at hk
      rcases Nat.lt_or_ge k m with h1 | h1
      · rw [hptr1 k h1] at hq
        exact Or.inl ⟨k, h1, hq⟩
      · have : k = m := by omega
        subst this
        rw [hptrm] at hq
        exact Or.inr (Option.some_injective _ hq).symm
    · rintro (⟨k, hk, hq⟩ | hq)
      · exact ⟨k, by omega, by rw [hptr1 k hk]; exact hq⟩
      · subst hq
        exact ⟨m, by omega, hptrm⟩

theorem ptrAt_inv {st : CacheState TId TObj} {k p : Nat}
    (h : ptrAt st k = some p) : st.sliceItems[k]? = some (some p) := by
  rw [ptrAt] at h
  rcases h' : st.sliceItems[k]? with _ | o
  · rw [h'] at h
    exact absurd h (by simp [Option.bind])
  · rw [h'] at h
    simp only [Option.some_bind, id] at h
    rw [h]

theorem set_last_dropLast {α : Type} (l : List α) (a : α) :
    (l.set (l.length - 1) a).dropLast = l.dropLast := by
  apply List.ext_getElem?
  intro i
  rw [List.getElem?_dropLast, List.getElem?_dropLast, List.length_set]
  by_cases h : i < l.length - 1
  · rw [if_pos h, if_pos h, List.getElem?_set_ne (by omega)]
  · rw [if_neg h, if_neg h]

theorem fresh_of_pres {st st' : CacheState TId TObj}
    (hpres : ∀ (q : Nat), (st'.store[q]?).map itemView = (st.store[q]?).map itemView)
    (hnow : st'.now = st.now)
    (hf : ∀ (p : Nat) (it : Item TId TObj), st.store[p]? = some it → it.Refreshed < st.now) :
    ∀ (p : Nat) (it : Item TId TObj), st'.store[p]? = some it → it.Refreshed < st'.now := by
  intro p it h
  have h2 := hpres p
  rw [h] at h2
  rcases h3 : st.store[p]? with _ | it2
  · rw [h3] at h2
    exact absurd h2 (by simp)
  · rw [h3] at h2
    simp only [Option.map_some'] at h2
    have : it.Refreshed = it2.Refreshed := by
      have := congrArg (fun v => v.2.1) (Option.some_injective _ h2)
      simpa [itemView] using this
    rw [hnow, this]
    exact hf p it2 h3

theorem pres_some {st st' : CacheState TId TObj}
    (hpres : ∀ (q : Nat), (st'.store[q]?).map itemView = (st.store[q]?).map itemView)
    {q : Nat} {it : Item TId TObj} (h : st.store[q]? = some it) :
    ∃ it', st'.store[q]? = some it' ∧ itemView it' = itemView it := by
  have h2 := hpres q
  rw [h] at h2
  rcases h3 : st'.store[q]? with _ | it'
  · rw [h3] at h2
    exact absurd h2 (by simp)
  · rw [h3] at h2
    simp only [Option.map_some'] at h2
    exact ⟨it', rfl, Option.some_injective _ h2⟩

/-- Full behaviour of the private `pop` path up to the popped record:
`heap.Pop` removes the root, the root record is the minimum, the map
loses exactly its key, and all invariants survive. -/
theorem popItem_spec (st : CacheState TId TObj) (hw : WF st) (hn : 0 < nlen st) :
    ∃ st' it p0, popItem st = some (st', it) ∧ WF st' ∧
      nlen st' = nlen st - 1 ∧
      st'.mapItems = mapDelete st.mapItems it.Id ∧
      st'.now = st.now ∧ st'.maxRows = st.maxRows ∧
      st'.store.length = st.store.length ∧
      mapLookup st.mapItems it.Id = some p0 ∧
      itemView it = itemView (itemAtD st 0) ∧
      (∀ j, j < nlen st → it.Refreshed ≤ tsD st j) ∧
      (∀ k, k < nlen st' → ∃ j, j < nlen st ∧ tsD st' k = tsD st j) := by
  obtain ⟨p0, it0, hs0, hp0, hst0, hit0, hd0, hidx0, hmap0, hobj0⟩ := hw.linked.spec hn
  have hcast : slen st - 1 = ((nlen st - 1 : Nat) : Int) := by
    rw [slen_eq_nlen]
    omega
  obtain ⟨stA, hrunA, hfrA, hlA, hinjA, hptrA, hviewA⟩ :=
    hSwap_spec st 0 (nlen st - 1) hw.linked hw.inj hn (by omega)
  rw [Nat.cast_zero] at hrunA
  have hnlenA : nlen stA = nlen st := hfrA.len_eq
  obtain ⟨stB, hrunB, hfrB, hlB, hinjB, hheapB, houtB⟩ :
      ∃ stB, (∃ iE : Nat, downLoop (stA.sliceItems.length + 1) stA ((0 : Nat) : Int)
          ((nlen st - 1 : Nat) : Int) = some (stB, ((iE : Nat) : Int))) ∧
        HFrame stA stB ∧ Linked stB ∧ PtrInj stB ∧ HeapOKn stB (nlen st - 1) ∧
        (∀ k, nlen st - 1 ≤ k → ptrAt stB k = ptrAt stA k ∧
          (itemAt stB k).map itemView = (itemAt stA k).map itemView) := by
    rcases Nat.lt_or_ge 1 (nlen st) with h2 | h2
    · have htsA : ∀ k, tsD stA k = tsD st (transp 0 (nlen st - 1) k) :=
        fun k => tsD_of_view (hviewA k)
      have hpreA : DownPre stA 0 (nlen st - 1) := by
        constructor
        · intro c hc hcn hpc
          rw [htsA, htsA]
          have hc2 : c ≠ nlen st - 1 := by omega
          have hp2 : par c ≠ nlen st - 1 := by
            have := par_lt hc
            omega
          rw [transp_other _ _ _ hpc hp2, transp_other _ _ _ (by omega : c ≠ 0) hc2]
          exact hw.heap c hc (by omega)
        · intro h0
          exact absurd h0 (lt_irrefl 0)
      obtain ⟨stB, iE, hrun, _, _, hfr, hl2, hinj2, hheap2, hout2⟩ :=
        downLoop_spec (stA.sliceItems.length + 1) stA 0 (nlen st - 1)
          (by have e : stA.sliceItems.length = nlen st := hnlenA; omega)
          (by omega) (by rw [show nlen stA = nlen st from hnlenA]; omega) hlA hinjA hpreA
      exact ⟨stB, ⟨iE, hrun⟩, hfr, hl2, hinj2, hheap2,
        fun k hk => hout2 k hk⟩
    · refine ⟨stA, ⟨0, ?_⟩, HFrame.refl stA, hlA, hinjA, ?_, ?_⟩
      · rw [show nlen st - 1 = 0 from by omega]
        exact downLoop_exit stA.sliceItems.length stA 0 0 (by omega)
      · intro c hc hcn
        omega
      · intro k _
        exact ⟨rfl, rfl⟩
  obtain ⟨iE, hrunB'⟩ := hrunB
  rw [Nat.cast_zero] at hrunB'
  have hfrStB : HFrame st stB := hfrA.comp hfrB
  have hnlenB : nlen stB = nlen st := hfrStB.len_eq
  have hlast : ptrAt stB (nlen st - 1) = some p0 := by
    rw [(houtB (nlen st - 1) (le_refl _)).1, hptrA (nlen st - 1), transp_right, hp0]
  have hslotB : stB.sliceItems[nlen st - 1]? = some (some p0) := ptrAt_inv hlast
  have hcastB : slen stB - 1 = ((nlen st - 1 : Nat) : Int) := by
    rw [slen_eq_nlen, hnlenB]
    omega
  set storeC := storeModify stB.store p0 (fun it => { it with index := -1 }) with hstoreC
  set st3 : CacheState TId TObj := { stB with
    sliceItems := (stB.sliceItems.set (nlen st - 1) none).dropLast,
    store := storeC } with hst3
  have hrunPop : itemsPop stB = some (st3, p0) := by
    rw [itemsPop]
    rw [show slen stB = slen stB from rfl]
    rw [hcastB, sliceGet_nat, hslotB,
      sliceSet_nat _ _ _ (by rw [show stB.sliceItems.length = nlen st from hnlenB]; omega)]
    simp [hst3, hstoreC]
  have hrunPopGo : heapPopGo st = some (st3, p0) := by
    rw [heapPopGo]
    rw [hcast, hrunA]
    simp only [Option.some_bind,
      show ∀ (o : Option (CacheState TId TObj)) (f : CacheState TId TObj →
        Option (CacheState TId TObj × Nat)), o >>= f = o.bind f from fun _ _ => rfl]
    rw [hrunB']
    simp only [Option.some_bind,
      show ∀ (o : Option (CacheState TId TObj × Int)) (f : CacheState TId TObj × Int →
        Option (CacheState TId TObj × Nat)), o >>= f = o.bind f from fun _ _ => rfl]
    exact hrunPop
  obtain ⟨itB, hstB_p0, hviewB⟩ := pres_some hfrStB.pres hst0
  have hstoreC_p0 : storeC[p0]? = some { itB with index := -1 } :=
    storeModify_get_self _ _ _ _ hstB_p0
  set itC : Item TId TObj := { itB with index := -1 } with hitC
  set st4 : CacheState TId TObj := { st3 with mapItems := mapDelete st3.mapItems itC.Id }
    with hst4
  have hrunItem : popItem st = some (st4, itC) := by
    rw [popItem, hrunPopGo]
    simp only [Option.some_bind,
      show ∀ (o : Option (CacheState TId TObj × Nat)) (f : CacheState TId TObj × Nat →
        Option (CacheState TId TObj × Item TId TObj)), o >>= f = o.bind f from
        fun _ _ => rfl]
    rw [show st3.store[p0]? = some itC from hstoreC_p0]
    rfl
  have hviewC : itemView itC = itemView it0 := hviewB
  have hids : itC.Id = it0.Id := congrArg Prod.fst hviewC
  have htsC : itC.Refreshed = it0.Refreshed := congrArg (fun v => v.2.1) hviewC
  have hmapeq4 : st4.mapItems = mapDelete st.mapItems itC.Id := by
    show mapDelete st3.mapItems itC.Id = _
    rw [show st3.mapItems = st.mapItems from hfrStB.map_eq]
  have hnow4 : st4.now = st.now := hfrStB.now_eq
  have hmax4 : st4.maxRows = st.maxRows := hfrStB.max_eq
  have hpres4 : ∀ (q : Nat), (st4.store[q]?).map itemView = (st.store[q]?).map itemView := by
    intro q
    show (storeC[q]?).map itemView = _
    by_cases hq : q = p0
    · subst hq
      rw [hstoreC_p0, hst0]
      show some (itemView itC) = some (itemView it0)
      rw [hviewC]
    · rw [hstoreC, storeModify_get_ne _ _ _ _ hq]
      exact hfrStB.pres q
  have hnlen4 : nlen st4 = nlen st - 1 := by
    show ((stB.sliceItems.set (nlen st - 1) none).dropLast).length = _
    rw [List.length_dropLast, List.length_set]
    rw [show stB.sliceItems.length = nlen st from hnlenB]
  have hslice4 : ∀ k, k < nlen st - 1 → st4.sliceItems[k]? = stB.sliceItems[k]? := by
    intro k hk
    show ((stB.sliceItems.set (nlen st - 1) none).dropLast)[k]? = _
    rw [List.getElem?_dropLast, List.length_set]
    rw [if_pos (by rw [show stB.sliceItems.length = nlen st from hnlenB]; omega)]
    exact List.getElem?_set_ne (by omega)
  have hptr4 : ∀ k, k < nlen st - 1 → ptrAt st4 k = ptrAt stB k := by
    intro k hk
    rw [ptrAt, ptrAt, hslice4 k hk]
  have hstore4_ne : ∀ q, q ≠ p0 → st4.store[q]? = stB.store[q]? := by
    intro q hq
    show storeC[q]? = _
    rw [hstoreC, storeModify_get_ne _ _ _ _ hq]
  have hqne_of_slot : ∀ k q, k < nlen st - 1 → ptrAt stB k = some q → q ≠ p0 := by
    intro k q hk hq hh
    subst hh
    have := hinjB k (nlen st - 1) q (by rw [hnlenB]; omega) (by rw [hnlenB]; omega) hq hlast
    omega
  have hitem4 : ∀ k, k < nlen st - 1 → itemAt st4 k = itemAt stB k := by
    intro k hk
    rw [itemAt, itemAt, hptr4 k hk]
    rcases hq : ptrAt stB k with _ | q
    · rfl
    · exact hstore4_ne q (hqne_of_slot k q hk hq)
  have hts4 : ∀ k, k < nlen st - 1 → tsD st4 k = tsD stB k := by
    intro k hk
    rw [tsD, tsD, itemAtD, itemAtD, hitem4 k hk]
  have hlinked4 : Linked st4 := by
    intro k hk
    rw [hnlen4] at hk
    obtain ⟨q, itq, hq1, hq2, hq3, hq4, hq5⟩ := hlB k (by rw [hnlenB]; omega)
    have hqp : ptrAt stB k = some q := by
      rw [ptrAt, hq1]
      rfl
    have hqne : q ≠ p0 := hqne_of_slot k q hk hqp
    have hidne : itq.Id ≠ itC.Id := by
      rw [hids]
      intro hh
      have h5 := hq4
      rw [hh] at h5
      have h6 : mapLookup stB.mapItems it0.Id = some p0 := by
        rw [hfrStB.map_eq]
        exact hmap0
      rw [h5] at h6
      exact hqne (Option.some_injective _ h6)
    refine ⟨q, itq, ?_, ?_, hq3, ?_, hq5⟩
    · rw [hslice4 k hk]
      exact hq1
    · rw [hstore4_ne q hqne]
      exact hq2
    · show mapLookup (mapDelete st3.mapItems itC.Id) itq.Id = some q
      rw [show st3.mapItems = stB.mapItems from rfl, mapLookup_delete_ne _ _ _ hidne]
      exact hq4
  have hinj4 : PtrInj st4 := by
    intro k1 k2 q hk1 hk2 hq1 hq2
    rw [hnlen4] at hk1 hk2
    rw [hptr4 k1 hk1] at hq1
    rw [hptr4 k2 hk2] at hq2
    exact hinjB k1 k2 q (by rw [hnlenB]; omega) (by rw [hnlenB]; omega) hq1 hq2
  have hmapinto4 : MapInto st4 := by
    intro k q hkq
    rw [hmapeq4, hids] at hkq
    have hkne : k ≠ it0.Id := by
      intro hh
      rw [hh, mapLookup_delete_self _ _ hw.nodup] at hkq
      exact absurd hkq (by simp)
    rw [mapLookup_delete_ne _ _ _ hkne] at hkq
    obtain ⟨i, hi, hpi, itq, hitq, hid⟩ := hw.mapinto k q hkq
    have hqne : q ≠ p0 := by
      intro hh
      rw [hh, hst0] at hitq
      apply hkne
      rw [← hid, Option.some_injective _ hitq]
    obtain ⟨iB, hiB, hpiB⟩ := (hfrStB.mem q).mpr ⟨i, hi, hpi⟩
    have hiBne : iB ≠ nlen st - 1 := by
      intro hh
      rw [hh] at hpiB
      rw [hpiB] at hlast
      exact hqne (Option.some_injective _ hlast)
    have hiB' : iB < nlen st - 1 := by
      rw [hnlenB] at hiB
      omega
    obtain ⟨itq2, hitq2, hview2⟩ := pres_some hfrStB.pres hitq
    refine ⟨iB, ?_, ?_, itq2, ?_, ?_⟩
    · rw [hnlen4]
      exact hiB'
    · rw [hptr4 iB hiB']
      exact hpiB
    · rw [hstore4_ne q hqne]
      exact hitq2
    · rw [show itq2.Id = itq.Id from congrArg Prod.fst hview2]
      exact hid
  have hcount4 : st4.mapItems.length = nlen st4 := by
    rw [hmapeq4, hids, hnlen4]
    have := mapDelete_length st.mapItems it0.Id p0 hmap0
    have hc := hw.count
    omega
  have hheap4 : HeapOKn st4 (nlen st4) := by
    intro c hc hcn
    rw [hnlen4] at hcn
    rw [hts4 c hcn, hts4 (par c) (Nat.lt_trans (par_lt hc) hcn)]
    exact hheapB c hc hcn
  have hfresh4 := fresh_of_pres hpres4 hnow4 hw.fresh
  have hnodup4 : (st4.mapItems.map Prod.fst).Nodup := by
    rw [hmapeq4]
    exact mapDelete_nodup _ _ hw.nodup
  refine ⟨st4, itC, p0, hrunItem,
    ⟨hlinked4, hinj4, hmapinto4, hnodup4, hcount4, hheap4, hfresh4⟩,
    hnlen4, hmapeq4, hnow4, hmax4, ?_, ?_, ?_, ?_, ?_⟩
  · show storeC.length = st.store.length
    rw [hstoreC, storeModify_length]
    exact hfrStB.store_len
  · rw [hids]
    exact hmap0
  · rw [hd0]
    exact hviewC
  · intro j hj
    rw [htsC, show it0.Refreshed = tsD st 0 from by rw [tsD, hd0]]
    exact root_min st (nlen st) hw.heap j hj
  · intro k hk
    rw [hnlen4] at hk
    obtain ⟨q, itq, hq1, _, _, _, _⟩ := hlinked4 k (by rw [hnlen4]; exact hk)
    have hq4 : ptrAt st4 k = some q := by
      rw [ptrAt, hq1]
      rfl
    have hqB : ptrAt stB k = some q := by
      rw [← hptr4 k hk]
      exact hq4
    obtain ⟨j, hj, hpj⟩ := (hfrStB.mem q).mp ⟨k, by rw [hnlenB]; omega, hqB⟩
    exact ⟨j, hj, refreshed_match hpres4 hq4 hpj⟩

theorem MapInto.of_frame {st st' : CacheState TId TObj}
    (hfr : HFrame st st') (hm : MapInto st) : MapInto st' := by
  intro k q hkq
  rw [hfr.map_eq] at hkq
  obtain ⟨i, hi, hpi, it, hit, hid⟩ := hm k q hkq
  obtain ⟨i', hi', hpi'⟩ := (hfr.mem q).mpr ⟨i, hi, hpi⟩
  obtain ⟨it', hit', hview'⟩ := pres_some hfr.pres hit
  exact ⟨i', hi', hpi', it', hit', by
    rw [show it'.Id = it.Id from congrArg Prod.fst hview']
    exact hid⟩

/-- Rejecting a `nil` value: `push` mutates nothing and returns `nil`. -/
theorem cachePush_nil (st : CacheState TId TObj) (id : TId) :
    cachePush st id none = some (st, none) := rfl

/-- The update path of `push` on a live key: the value is replaced, the
timestamp refreshed in place, the heap repaired by `Fix`, and no entry
is created or destroyed. -/
theorem cachePush_present (st : CacheState TId TObj) (id : TId) (v : TObj) (p : Nat)
    (hw : WF st) (hpr : mapLookup st.mapItems id = some p) :
    ∃ st', cachePush st id (some v) = some (st', some v) ∧ WF st' ∧
      st'.mapItems = st.mapItems ∧ nlen st' = nlen st ∧
      st'.maxRows = st.maxRows ∧ st'.now = st.now + 1 ∧
      st'.store.length = st.store.length ∧
      (st'.store[p]?).map itemView = some (id, st.now, some v) := by
  obtain ⟨i, hi, hpi, it1, hit1, hid1⟩ := hw.mapinto id p hpr
  obtain ⟨p', it', hs0', hp0', hst0', hitA, hitD, hidx', hmap0', hobj'⟩ := hw.linked.spec hi
  have hpp : p' = p := Option.some_injective _ (hp0'.symm.trans hpi)
  have hs' : st.sliceItems[i]? = some (some p) := by rw [← hpp]; exact hs0'
  have hp' : ptrAt st i = some p := by rw [← hpp]; exact hp0'
  have hst' : st.store[p]? = some it' := by rw [← hpp]; exact hst0'
  have hmap' : mapLookup st.mapItems it'.Id = some p := by rw [← hpp]; exact hmap0'
  have hit_eq : it' = it1 := Option.some_injective _ (hst'.symm.trans hit1)
  subst hit_eq
  set it2 : Item TId TObj := { it' with obj := some v, Refreshed := st.now } with hit2
  set st1 : CacheState TId TObj := { st with
    store := storeModify st.store p (fun it => { it with obj := some v, Refreshed := st.now }),
    now := st.now + 1 } with hst1
  have hst1_p : st1.store[p]? = some it2 := storeModify_get_self _ _ _ _ hst'
  have hst1_ne : ∀ q, q ≠ p → st1.store[q]? = st.store[q]? := by
    intro q hq
    show (storeModify st.store p _)[q]? = _
    exact storeModify_get_ne _ _ _ _ hq
  have hnlen1 : nlen st1 = nlen st := rfl
  have hslice1 : st1.sliceItems = st.sliceItems := rfl
  have hptr1 : ∀ k, ptrAt st1 k = ptrAt st k := fun _ => rfl
  have hqne_slot : ∀ k q, k < nlen st → k ≠ i → ptrAt st k = some q → q ≠ p := by
    intro k q hk hki hq hh
    subst hh
    exact hki (hw.inj k i q hk hi hq hpi)
  have hts1 : ∀ k, k < nlen st → k ≠ i → tsD st1 k = tsD st k := by
    intro k hk hki
    obtain ⟨q, itq, hq1, hq2, _, _, _⟩ := hw.linked k hk
    have hqp : ptrAt st k = some q := by
      rw [ptrAt, hq1]
      rfl
    rw [tsD, tsD, itemAtD, itemAtD, itemAt, itemAt, hptr1, hqp]
    simp only [Option.some_bind]
    rw [hst1_ne q (hqne_slot k q hk hki hqp)]
  have hts1_i : tsD st1 i = st.now := by
    have hq1 : ptrAt st1 i = some p := by
      rw [hptr1]
      exact hp'
    rw [tsD, itemAtD, itemAt, hq1]
    simp only [Option.some_bind]
    rw [hst1_p]
    rfl
  have hl1 : Linked st1 := by
    intro k hk
    rw [hnlen1] at hk
    by_cases hki : k = i
    · subst hki
      refine ⟨p, it2, hs', hst1_p, hidx', ?_, by simp [hit2]⟩
      show mapLookup st.mapItems it2.Id = some p
      rw [show it2.Id = it'.Id from rfl]
      exact hmap'
    · obtain ⟨q, itq, hq1, hq2, hq3, hq4, hq5⟩ := hw.linked k hk
      have hqp : ptrAt st k = some q := by
        rw [ptrAt, hq1]
        rfl
      exact ⟨q, itq, hq1, by rw [hst1_ne q (hqne_slot k q hk hki hqp)]; exact hq2,
        hq3, hq4, hq5⟩
  have hinj1 : PtrInj st1 := hw.inj
  have hidx2 : it2.index = ((i : Nat) : Int) := hidx'
  obtain ⟨st2, hrun2, hfr2, hl2, hinj2, hheap2⟩ :=
    heapFix_spec st1 i hl1 hinj1 (by rw [hnlen1]; exact hi)
      (by
        intro c hc hcn hci hpci
        rw [hnlen1] at hcn
        rw [hts1 c hcn hci, hts1 (par c) (Nat.lt_trans (par_lt hc) hcn) hpci]
        exact hw.heap c hc hcn)
      (by
        intro hi0 c hcn hpci
        rw [hnlen1] at hcn
        have hci : c ≠ i := by
          have := (child_bounds (child_pos hi0 hpci) hpci).1
          omega
        have hpii : par i ≠ i := Nat.ne_of_lt (par_lt hi0)
        rw [hts1 c hcn hci, hts1 (par i) (Nat.lt_trans (par_lt hi0) hi) hpii]
        have h1 := hw.heap i hi0 hi
        have h2 : tsD st i ≤ tsD st c := by
          rcases Nat.eq_zero_or_pos c with h0 | h0
          · have := child_pos hi0 hpci
            omega
          · have := hw.heap c h0 hcn
            rw [hpci] at this
            exact this
        exact le_trans h1 h2)
      (by
        intro hi0
        have hpii : par i ≠ i := Nat.ne_of_lt (par_lt hi0)
        rw [hts1 (par i) (Nat.lt_trans (par_lt hi0) hi) hpii, hts1_i]
        obtain ⟨q, itq, hq1, hq2, _, _, _⟩ := hw.linked (par i) (Nat.lt_trans (par_lt hi0) hi)
        have hqp : ptrAt st (par i) = some q := by
          rw [ptrAt, hq1]
          rfl
        have : tsD st (par i) = itq.Refreshed := by
          rw [tsD, itemAtD, itemAt, hqp]
          simp only [Option.some_bind]
          rw [hq2]
          rfl
        rw [this]
        exact le_of_lt (hw.fresh q itq hq2))
  have hraw_p : (storeModify st.store p
      (fun it => { it with obj := some v, Refreshed := st.now }))[p]? = some it2 :=
    storeModify_get_self _ _ _ _ hst'
  have hrun : cachePush st id (some v) = some (st2, some v) := by
    rw [cachePush, hpr]
    show (match (storeModify st.store p
        (fun it => { it with obj := some v, Refreshed := st.now }))[p]? with
      | none => none
      | some it =>
        match heapFix st1 it.index with
        | none => none
        | some stf => some (stf, some v)) = some (st2, some v)
    rw [hraw_p]
    show (match heapFix st1 it2.index with
      | none => none
      | some stf => some (stf, some v)) = some (st2, some v)
    rw [show it2.index = ((i : Nat) : Int) from hidx2, hrun2]
  have hfreshl : ∀ (q : Nat) (it : Item TId TObj), st1.store[q]? = some it →
      it.Refreshed < st1.now := by
    intro q it h
    by_cases hq : q = p
    · subst hq
      rw [hst1_p] at h
      rw [← Option.some_injective _ h]
      show st.now < st.now + 1
      omega
    · rw [hst1_ne q hq] at h
      have := hw.fresh q it h
      show it.Refreshed < st.now + 1
      omega
  have hmap1 : st1.mapItems = st.mapItems := rfl
  refine ⟨st2, hrun,
    ⟨hl2, hinj2, MapInto.of_frame hfr2 ?_, ?_, ?_, hheap2, fresh_of_pres hfr2.pres hfr2.now_eq hfreshl⟩,
    ?_, ?_, ?_, ?_, ?_, ?_⟩
  · -- MapInto st1
    intro k q hkq
    rw [hmap1] at hkq
    obtain ⟨i', hi', hpi', itq, hitq, hidq⟩ := hw.mapinto k q hkq
    by_cases hq : q = p
    · subst hq
      refine ⟨i', hi', hpi', it2, hst1_p, ?_⟩
      have : itq = it' := Option.some_injective _ (hitq.symm.trans hst')
      subst this
      exact hidq
    · exact ⟨i', hi', hpi', itq, by rw [hst1_ne q hq]; exact hitq, hidq⟩
  · rw [hfr2.map_eq, hmap1]
    exact hw.nodup
  · rw [hfr2.map_eq, hmap1]
    show st.mapItems.length = nlen st2
    rw [show nlen st2 = nlen st1 from hfr2.len_eq, hnlen1]
    exact hw.count
  · rw [hfr2.map_eq, hmap1]
  · rw [show nlen st2 = nlen st1 from hfr2.len_eq, hnlen1]
  · rw [hfr2.max_eq]
  · rw [hfr2.now_eq]
  · rw [hfr2.store_len]
    exact storeModify_length _ _ _
  · rw [hfr2.pres p, hst1_p]
    show some (itemView it2) = some (id, st.now, some v)
    rw [show itemView it2 = (it2.Id, it2.Refreshed, it2.obj) from rfl]
    rw [show it2.Id = it'.Id from rfl, hid1]

/-- The insert path of `push` on an absent key: a fresh record is
allocated, linked into both structures, sifted up, and — when the slice
has grown beyond `maxRows` — the root is immediately evicted. -/
theorem cachePush_absent (st : CacheState TId TObj) (id : TId) (v : TObj)
    (hw : WF st) (habs : mapLookup st.mapItems id = none) :
    ∃ st', cachePush st id (some v) = some (st', some v) ∧ WF st' ∧
      st'.maxRows = st.maxRows ∧
      ((st.maxRows < (nlen st : Int) + 1 ∧ nlen st' = nlen st) ∨
        (¬ st.maxRows < (nlen st : Int) + 1 ∧ nlen st' = nlen st + 1 ∧
          st'.mapItems = st.mapItems ++ [(id, st.store.length)])) := by
  have hid_not : id ∉ st.mapItems.map Prod.fst := (mapLookup_eq_none_iff _ _).mp habs
  set newPtr := st.store.length with hnewPtr
  set newItem : Item TId TObj :=
    { Id := id, index := slen st, Refreshed := st.now, obj := some v } with hnewItem
  set st1 : CacheState TId TObj :=
    { st with store := st.store ++ [newItem], now := st.now + 1 } with hst1
  set st2 : CacheState TId TObj :=
    { st1 with mapItems := mapAssign st1.mapItems id newPtr } with hst2
  have hmapeq2 : st2.mapItems = st.mapItems ++ [(id, newPtr)] :=
    mapAssign_absent _ _ _ habs
  have hnlen2 : nlen st2 = nlen st := rfl
  have hptr2 : ∀ k, ptrAt st2 k = ptrAt st k := fun _ => rfl
  have hstore2_old : ∀ q, q < st.store.length → st2.store[q]? = st.store[q]? := by
    intro q hq
    show (st.store ++ [newItem])[q]? = st.store[q]?
    rw [List.getElem?_append, if_pos hq]
  have hstore2_new : st2.store[newPtr]? = some newItem := by
    show (st.store ++ [newItem])[st.store.length]? = some newItem
    exact List.getElem?_concat_length _ _
  have hvalid : ∀ k q, k < nlen st → ptrAt st k = some q → q < st.store.length := by
    intro k q hk hq
    obtain ⟨q', itq, hq1, hq2, _, _, _⟩ := hw.linked k hk
    have : ptrAt st k = some q' := by
      rw [ptrAt, hq1]
      rfl
    rw [this] at hq
    have hqq : q' = q := Option.some_injective _ hq
    subst hqq
    exact (List.getElem?_eq_some.mp hq2).1
  have hidne : ∀ k, k < nlen st → idAtD st k ≠ id → True := fun _ _ _ => trivial
  have hl2 : Linked st2 := by
    intro k hk
    rw [hnlen2] at hk
    obtain ⟨q, itq, hq1, hq2, hq3, hq4, hq5⟩ := hw.linked k hk
    have hqlt : q < st.store.length := (List.getElem?_eq_some.mp hq2).1
    have hidq : itq.Id ≠ id := by
      intro hh
      rw [hh, habs] at hq4
      exact absurd hq4 (by simp)
    refine ⟨q, itq, hq1, by rw [hstore2_old q hqlt]; exact hq2, hq3, ?_, hq5⟩
    show mapLookup (mapAssign st.mapItems id newPtr) itq.Id = some q
    rw [mapLookup_assign_ne _ _ _ _ hidq]
    exact hq4
  have hinj2 : PtrInj st2 := hw.inj
  have hts2 : ∀ k, k < nlen st → tsD st2 k = tsD st k := by
    intro k hk
    obtain ⟨q, itq, hq1, hq2, _, _, _⟩ := hw.linked k hk
    have hqp : ptrAt st k = some q := by
      rw [ptrAt, hq1]
      rfl
    have hqlt : q < st.store.length := (List.getElem?_eq_some.mp hq2).1
    rw [tsD, tsD, itemAtD, itemAtD, itemAt, itemAt, hptr2, hqp]
    simp only [Option.some_bind]
    rw [hstore2_old q hqlt]
  have hheap2 : HeapOKn st2 (nlen st2) := by
    intro c hc hcn
    rw [hnlen2] at hcn
    rw [hts2 c hcn, hts2 (par c) (Nat.lt_trans (par_lt hc) hcn)]
    exact hw.heap c hc hcn
  have hfresh2 : ∀ (q : Nat) (it : Item TId TObj), st2.store[q]? = some it →
      it.Refreshed < st2.now := by
    intro q it h
    show it.Refreshed < st.now + 1
    rcases Nat.lt_trichotomy q st.store.length with hq | hq | hq
    · rw [hstore2_old q hq] at h
      have := hw.fresh q it h
      omega
    · subst hq
      rw [hstore2_new] at h
      rw [← Option.some_injective _ h]
      show st.now < st.now + 1
      omega
    · exfalso
      have : st2.store.length ≤ q := by
        show (st.store ++ [newItem]).length ≤ q
        rw [List.length_append]
        simpa using hq
      rw [List.getElem?_eq_none this] at h
      exact absurd h (by simp)
  have hmem2 : ∀ q, PtrMem st2 q ↔ PtrMem st q := by
    intro q
    constructor
    · rintro ⟨k, hk, hq⟩
      exact ⟨k, hk, by rw [← hptr2]; exact hq⟩
    · rintro ⟨k, hk, hq⟩
      exact ⟨k, hk, by rw [hptr2]; exact hq⟩
  obtain ⟨st3, hrun3, hl3, hinj3, hheap3, hnlen3, hmap3, hnow3, hmax3, hstlen3, hpres3,
      hmem3⟩ :=
    heapPushGo_spec st2 newPtr newItem hl2 hinj2 hheap2 hstore2_new
      (by rw [hnlen2]; exact rfl)
      (mapLookup_assign_self _ _ _)
      rfl
      (by
        intro hmem
        obtain ⟨k, hk, hq⟩ := hmem
        rw [hnlen2] at hk
        rw [hptr2] at hq
        exact absurd (hvalid k newPtr hk hq) (lt_irrefl _))
  have hW3 : WF st3 := by
    refine ⟨hl3, hinj3, ?_, ?_, ?_, hheap3, ?_⟩
    · -- MapInto st3
      intro k q hkq
      rw [hmap3, hst2] at hkq
      by_cases hkid : k = id
      · subst hkid
        rw [mapLookup_assign_self] at hkq
        have hq : q = newPtr := (Option.some_injective _ hkq).symm
        subst hq
        obtain ⟨i3, hi3, hpi3⟩ := (hmem3 newPtr).mpr (Or.inr rfl)
        obtain ⟨it3, hit3, hview3⟩ := pres_some hpres3 hstore2_new
        refine ⟨i3, hi3, hpi3, it3, hit3, ?_⟩
        rw [show it3.Id = newItem.Id from congrArg Prod.fst hview3, hnewItem]
      · rw [mapLookup_assign_ne _ _ _ _ hkid] at hkq
        obtain ⟨i, hi, hpi, itq, hitq, hidq⟩ := hw.mapinto k q hkq
        have hqlt : q < st.store.length := (List.getElem?_eq_some.mp hitq).1
        obtain ⟨i3, hi3, hpi3⟩ := (hmem3 q).mpr (Or.inl ((hmem2 q).mpr ⟨i, hi, hpi⟩))
        obtain ⟨it3, hit3, hview3⟩ :=
          pres_some hpres3 (by rw [hstore2_old q hqlt]; exact hitq)
        refine ⟨i3, hi3, hpi3, it3, hit3, ?_⟩
        rw [show it3.Id = itq.Id from congrArg Prod.fst hview3]
        exact hidq
    · rw [hmap3, hmapeq2, List.map_append]
      rw [List.nodup_append]
      refine ⟨hw.nodup, List.nodup_singleton id, ?_⟩
      intro a ha hb
      simp only [List.map_cons, List.map_nil, List.mem_singleton] at hb
      subst hb
      exact hid_not ha
    · rw [hmap3, hmapeq2, List.length_append, hnlen3, hnlen2]
      simp [hw.count]
    · exact fresh_of_pres hpres3 hnow3 hfresh2
  have hcond_iff : st3.maxRows < slen st3 ↔ st.maxRows < (nlen st : Int) + 1 := by
    rw [hmax3, slen_eq_nlen, hnlen3, hnlen2]
    push_cast
    omega
  by_cases hov : st.maxRows < (nlen st : Int) + 1
  · -- overflow: the root is evicted inside the same push
    obtain ⟨st4, itX, pX, hrun4, hW4, hnlen4, _, _, hmax4, _, _, _, _, _⟩ :=
      popItem_spec st3 hW3 (by rw [hnlen3]; omega)
    refine ⟨st4, ?_, hW4, by rw [hmax4, hmax3], Or.inl ⟨hov, ?_⟩⟩
    · rw [cachePush, habs]
      show (match heapPushGo st2 newPtr with
        | none => none
        | some st3' =>
          if st3'.maxRows < slen st3' then
            match popItem st3' with
            | none => none
            | some (st4', _) => some (st4', some v)
          else some (st3', some v)) = some (st4, some v)
      rw [hrun3]
      show (if st3.maxRows < slen st3 then
          match popItem st3 with
          | none => none
          | some (st4', _) => some (st4', some v)
        else some (st3, some v)) = some (st4, some v)
      rw [if_pos (hcond_iff.mpr hov), hrun4]
    · rw [hnlen4, hnlen3, hnlen2]
      omega
  · refine ⟨st3, ?_, hW3, by rw [hmax3], Or.inr ⟨hov, by rw [hnlen3, hnlen2], ?_⟩⟩
    · rw [cachePush, habs]
      show (match heapPushGo st2 newPtr with
        | none => none
        | some st3' =>
          if st3'.maxRows < slen st3' then
            match popItem st3' with
            | none => none
            | some (st4', _) => some (st4', some v)
          else some (st3', some v)) = some (st3, some v)
      rw [hrun3]
      show (if st3.maxRows < slen st3 then
          match popItem st3 with
          | none => none
          | some (st4', _) => some (st4', some v)
        else some (st3, some v)) = some (st3, some v)
      rw [if_neg (fun hh => hov (hcond_iff.mp hh))]
    · rw [hmap3, hmapeq2]

end UpDownLemmas

section SeqLemmas

variable {TId TObj : Type} [DecidableEq TId] [Inhabited TId]

/-- The freshly constructed cache satisfies every invariant. -/
theorem WF_new (maxRows : Int) : WF (NewHeapedCache maxRows : CacheState TId TObj) := by
  refine ⟨?_, ?_, ?_, ?_, rfl, ?_, ?_⟩
  · intro i hi
    exact absurd hi (by simp [nlen, NewHeapedCache])
  · intro i j p hi
    exact absurd hi (by simp [nlen, NewHeapedCache])
  · intro k p hkp
    exact absurd hkp (by simp [NewHeapedCache, mapLookup])
  · simp [NewHeapedCache]
  · intro c hc hcn
    exact absurd hcn (by simp [nlen, NewHeapedCache])
  · intro p it h
    exact absurd h (by simp [NewHeapedCache])

/-- Every `push` on an invariant-satisfying state succeeds and keeps the
live count below the capacity whenever it already was. -/
theorem cachePush_bound (st : CacheState TId TObj) (id : TId) (v : Option TObj)
    (hw : WF st) (hb : (nlen st : Int) ≤ st.maxRows) :
    ∃ st' r, cachePush st id v = some (st', r) ∧ WF st' ∧
      st'.maxRows = st.maxRows ∧ (nlen st' : Int) ≤ st.maxRows := by
  rcases v with _ | v
  · exact ⟨st, none, cachePush_nil st id, hw, rfl, hb⟩
  · rcases hpr : mapLookup st.mapItems id with _ | p
    · obtain ⟨st', hrun, hw', hmax', hcase⟩ := cachePush_absent st id v hw hpr
      refine ⟨st', some v, hrun, hw', hmax', ?_⟩
      rcases hcase with ⟨_, hn⟩ | ⟨hno, hn, _⟩
      · rw [hn]
        exact hb
      · rw [hn]
        push_cast
        omega
    · obtain ⟨st', hrun, hw', _, hn, hmax', _, _, _⟩ := cachePush_present st id v p hw hpr
      refine ⟨st', some v, hrun, hw', hmax', ?_⟩
      rw [hn]
      exact hb

/-- Iterating `push` from an invariant state keeps the bound. -/
theorem pushSeq_bound (ops : List (TId × TObj)) : ∀ (st : CacheState TId TObj),
    WF st → (nlen st : Int) ≤ st.maxRows →
    ∃ st', pushSeq st ops = some st' ∧ WF st' ∧ st'.maxRows = st.maxRows ∧
      (nlen st' : Int) ≤ st.maxRows := by
  induction ops with
  | nil => exact fun st hw hb => ⟨st, rfl, hw, rfl, hb⟩
  | cons hd tl ih =>
    intro st hw hb
    obtain ⟨k, v⟩ := hd
    obtain ⟨st1, r, hrun1, hw1, hmax1, hb1⟩ := cachePush_bound st k (some v) hw hb
    obtain ⟨st2, hrun2, hw2, hmax2, hb2⟩ := ih st1 hw1 (by rw [hmax1]; exact hb1)
    refine ⟨st2, ?_, hw2, by rw [hmax2, hmax1], by rw [← hmax1]; exact hb2⟩
    rw [pushSeq, hrun1]
    show pushSeq st1 tl = some st2
    exact hrun2

/-- Iterating `push` over fresh distinct keys within capacity adds the
keys in order and never evicts. -/
theorem pushSeq_keys (ops : List (TId × TObj)) : ∀ (st : CacheState TId TObj),
    WF st → ((st.mapItems.map Prod.fst) ++ ops.map Prod.fst).Nodup →
    ((nlen st : Int) + ops.length ≤ st.maxRows) →
    ∃ st', pushSeq st ops = some st' ∧ WF st' ∧
      st'.mapItems.map Prod.fst = st.mapItems.map Prod.fst ++ ops.map Prod.fst ∧
      nlen st' = nlen st + ops.length ∧ st'.maxRows = st.maxRows := by
  induction ops with
  | nil => exact fun st hw _ _ => ⟨st, rfl, hw, by simp, by simp, rfl⟩
  | cons hd tl ih =>
    intro st hw hnd hcap
    obtain ⟨k, v⟩ := hd
    have habs : mapLookup st.mapItems k = none := by
      rw [mapLookup_eq_none_iff]
      intro hmem
      have : ¬ (st.mapItems.map Prod.fst).Disjoint (((k, v) :: tl).map Prod.fst) :=
        fun hdisj => hdisj hmem (by simp)
      rw [List.nodup_append] at hnd
      exact this hnd.2.2
    obtain ⟨st1, hrun1, hw1, hmax1, hcase⟩ := cachePush_absent st k v hw habs
    rcases hcase with ⟨hov, _⟩ | ⟨_, hn1, hkeys1⟩
    · exfalso
      simp only [List.length_cons] at hcap
      push_cast at hcap hov
      omega
    · have hnd1 : ((st1.mapItems.map Prod.fst) ++ tl.map Prod.fst).Nodup := by
        rw [hkeys1]
        simpa using hnd
      obtain ⟨st2, hrun2, hw2, hkeys2, hn2, hmax2⟩ := ih st1 hw1 hnd1
        (by
          rw [hn1, hmax1]
          simp only [List.length_cons] at hcap
          push_cast at hcap ⊢
          omega)
      refine ⟨st2, ?_, hw2, ?_, ?_, by rw [hmax2, hmax1]⟩
      · rw [pushSeq, hrun1]
        show pushSeq st1 tl = some st2
        exact hrun2
      · rw [hkeys2, hkeys1]
        simp
      · rw [hn2, hn1]
        simp only [List.length_cons]
        omega
  
theorem mapLookup_mem_keys (m : List (TId × Nat)) (k : TId) (p : Nat)
    (h : mapLookup m k = some p) : k ∈ m.map Prod.fst := by
  by_contra hmem
  rw [← mapLookup_eq_none_iff] at hmem
  rw [hmem] at h
  exact absurd h (by simp)

/-- Draining an invariant cache with `pop` until `Len() == 0` yields its
keys exactly once, in non-decreasing timestamp order. -/
theorem drain_spec : ∀ (fuel : Nat) (st : CacheState TId TObj), WF st → nlen st ≤ fuel →
    ∃ items, drainItems fuel st = some items ∧
      (items.map (fun it => it.Id)).Perm (st.mapItems.map Prod.fst) ∧
      List.Sorted (· ≤ ·) (items.map (fun it => it.Refreshed)) ∧
      (∀ it ∈ items, ∃ j, j < nlen st ∧ it.Refreshed = tsD st j) := by
  intro fuel
  induction fuel with
  | zero =>
    intro st hw hfuel
    have h0 : st.mapItems.length = 0 := by
      rw [hw.count]
      omega
    refine ⟨[], ?_, ?_, by simp, by simp⟩
    · rw [drainItems, if_pos h0]
    · rw [List.length_eq_zero.mp h0]
      simp
  | succ fuel ih =>
    intro st hw hfuel
    by_cases h0 : st.mapItems.length = 0
    · refine ⟨[], ?_, ?_, by simp, by simp⟩
      · rw [drainItems, if_pos h0]
      · rw [List.length_eq_zero.mp h0]
        simp
    · have hn : 0 < nlen st := by
        rw [← hw.count]
        omega
      obtain ⟨st1, it, p0, hrun1, hw1, hnlen1, hmap1, _, _, _, hlk1, hview1, hmin1, hsub1⟩ :=
        popItem_spec st hw hn
      obtain ⟨items1, hrun2, hperm2, hsort2, hsub2⟩ := ih st1 hw1 (by omega)
      refine ⟨it :: items1, ?_, ?_, ?_, ?_⟩
      · rw [drainItems, if_neg h0, hrun1]
        simp only [Option.some_bind,
          show ∀ (o : Option (CacheState TId TObj × Item TId TObj))
            (f : CacheState TId TObj × Item TId TObj →
              Option (List (Item TId TObj))), o >>= f = o.bind f from fun _ _ => rfl]
        rw [hrun2]
        rfl
      · simp only [List.map_cons]
        have hkeys1 : st1.mapItems.map Prod.fst = (st.mapItems.map Prod.fst).erase it.Id := by
          rw [hmap1, mapDelete_keys]
        rw [hkeys1] at hperm2
        have hmem : it.Id ∈ st.mapItems.map Prod.fst := mapLookup_mem_keys _ _ _ hlk1
        exact (hperm2.cons it.Id).trans (List.perm_cons_erase hmem).symm
      · simp only [List.map_cons]
        rw [List.sorted_cons]
        refine ⟨?_, hsort2⟩
        intro b hb
        simp only [List.mem_map] at hb
        obtain ⟨it', hit', rfl⟩ := hb
        obtain ⟨j, hj, hts⟩ := hsub2 it' hit'
        obtain ⟨j2, hj2, hts2⟩ := hsub1 j hj
        rw [hts, hts2]
        exact hmin1 j2 hj2
      · intro it' hit'
        rcases List.mem_cons.mp hit' with rfl | hmem
        · refine ⟨0, hn, ?_⟩
          rw [show it'.Refreshed = (itemAtD st 0).Refreshed from
            congrArg (fun x => x.2.1) hview1]
          rfl
        · obtain ⟨j, hj, hts⟩ := hsub2 it' hmem
          obtain ⟨j2, hj2, hts2⟩ := hsub1 j hj
          exact ⟨j2, hj2, hts.trans hts2⟩

/-- Characterisation of `Get` on a hit and on a miss. -/
theorem cacheGet_absent (st : CacheState TId TObj) (id : TId)
    (h : mapLookup st.mapItems id = none) : cacheGet st id = none := by
  rw [cacheGet, h]

theorem cacheGet_present (st : CacheState TId TObj) (id : TId) (p : Nat)
    (it : Item TId TObj) (hpr : mapLookup st.mapItems id = some p)
    (hit : st.store[p]? = some it) : cacheGet st id = it.obj := by
  rw [cacheGet, hpr]
  show (match st.store[p]? with
    | some it => it.obj
    | none => none) = it.obj
  rw [hit]

/-- The three behaviours of `GetOrAdd`: hit without invoking the loader,
miss with a declining loader, miss with a producing loader. -/
theorem cacheGetOrAdd_hit (st : CacheState TId TObj) (id : TId) (fn : TId → Option TObj)
    (p : Nat) (it : Item TId TObj) (hpr : mapLookup st.mapItems id = some p)
    (hit : st.store[p]? = some it) :
    cacheGetOrAdd st id fn = some (st, it.obj, 0) := by
  rw [cacheGetOrAdd, hpr]
  show (match st.store[p]? with
    | some it => some (st, it.obj, 0)
    | none => none) = some (st, it.obj, 0)
  rw [hit]

theorem cacheGetOrAdd_miss_none (st : CacheState TId TObj) (id : TId)
    (fn : TId → Option TObj) (hpr : mapLookup st.mapItems id = none)
    (hfn : fn id = none) :
    cacheGetOrAdd st id fn = some (st, none, 1) := by
  rw [cacheGetOrAdd, hpr]
  show (match fn id with
    | none => some (st, none, 1)
    | some _ => (cachePush st id (fn id)).map (fun r => (r.1, r.2, 1))) = some (st, none, 1)
  rw [hfn]

theorem cacheGetOrAdd_miss_some (st : CacheState TId TObj) (id : TId)
    (fn : TId → Option TObj) (v : TObj) (hpr : mapLookup st.mapItems id = none)
    (hfn : fn id = some v) :
    cacheGetOrAdd st id fn = (cachePush st id (some v)).map
      (fun r : CacheState TId TObj × Option TObj => (r.1, r.2, 1)) := by
  rw [cacheGetOrAdd, hpr]
  show (match fn id with
    | none => some (st, none, 1)
    | some _ => (cachePush st id (fn id)).map
        (fun r : CacheState TId TObj × Option TObj => (r.1, r.2, 1))) = _
  rw [hfn]

end SeqLemmas

section Claims

variable {TId TObj : Type} [DecidableEq TId] [Inhabited TId]

/-- Claim C1 — Capacity bound: for every `maxRows ≥ 1` and every sequence
of `Push` calls with distinct keys and non-nil values on a cache built by
`NewHeapedCache maxRows`, after each `Push` returns (that is, after every
prefix of the sequence) `Len() ≤ maxRows`. -/
theorem claim_C1_capacity_bound (maxRows : Int) (hm : 1 ≤ maxRows)
    (ops : List (TId × TObj)) (hnd : (ops.map Prod.fst).Nodup) :
    ∀ l1 l2, ops = l1 ++ l2 →
      ∃ st', pushSeq (NewHeapedCache maxRows) l1 = some st' ∧
        cacheLen st' ≤ maxRows := by
  intro l1 l2 hsplit
  obtain ⟨st', hrun, hw', hmax', hb'⟩ := pushSeq_bound l1 (NewHeapedCache maxRows)
    (WF_new maxRows) (by simp [nlen, NewHeapedCache]; omega)
  refine ⟨st', hrun, ?_⟩
  show (st'.mapItems.length : Int) ≤ maxRows
  rw [hw'.count]
  exact hb'

theorem claim_C1_capacity_bound_witness :
    (1 : Int) ≤ 2 ∧
    ∃ st', pushSeq (NewHeapedCache 2 : CacheState Nat Nat) [(1, 10)] = some st' ∧
      cacheLen st' ≤ 2 :=
  ⟨by decide,
    claim_C1_capacity_bound 2 (by decide) [(1, 10), (2, 20)] (by decide)
      [(1, 10)] [(2, 20)] rfl⟩

/-- Claim C2 — the structural invariants do NOT survive every public
operation: on the invariant-satisfying cache obtained by pushing the
distinct keys 1, 2, 3, the public `Remove` of key 1 panics inside
`heap.Fix` (`Less` dereferences the `nil` just written into the last
slot, because `findItem.index` is re-read after `Swap` moved the record
there), so the operation has no post-state at all — the code, not the
claim, is at fault. -/
theorem claim_C2_invariants_code_bug :
    (pushSeq (NewHeapedCache 10 : CacheState Nat Nat) [(1, 11), (2, 22), (3, 33)]).bind
      (fun st => cacheRemove st 1) = none := by decide

/-- Claim C3 — `Remove` on a live key does not behave as specified: on a
cache holding the two distinct keys 4 and 5, removing key 5 panics (same
`nil`-dereference inside `heap.Fix`) instead of deleting the entry and
returning `true`; only singleton caches and absent keys work. -/
theorem claim_C3_remove_code_bug :
    (pushSeq (NewHeapedCache 10 : CacheState Nat Nat) [(4, 44), (5, 55)]).bind
      (fun st => cacheRemove st 5) = none := by decide

/-- Claim C4 as stated is false: `Pop()` on an empty cache does not
return `nil` — it panics (index out of range in `Swap(0, -1)`), shown
here on the freshly constructed cache, whose `Len()` is 0. -/
theorem claim_C4_counterexample :
    cacheLen (NewHeapedCache 5 : CacheState Nat Nat) = 0 ∧
    cachePop (NewHeapedCache 5 : CacheState Nat Nat) = none := by decide

/-- Claim C4, amended: on an empty cache `Pop()` fails fast (panics)
rather than returning a value; on a non-empty cache it evicts and
returns the current oldest entry — the record with the minimal
`Refreshed` timestamp — and the live count drops by one. -/
theorem claim_C4_pop_amended (st : CacheState TId TObj) (hw : WF st) :
    (cacheLen st = 0 → cachePop st = none) ∧
    (0 < cacheLen st → ∃ st' it, popItem st = some (st', it) ∧
      cachePop st = some (st', it.obj) ∧ WF st' ∧
      cacheLen st' = cacheLen st - 1 ∧
      (∀ j, j < nlen st → it.Refreshed ≤ tsD st j)) := by
  constructor
  · intro hlen
    have hmap0 : st.mapItems.length = 0 := by
      have : (st.mapItems.length : Int) = 0 := hlen
      exact_mod_cast this
    have hn0 : nlen st = 0 := by
      rw [← hw.count]
      exact hmap0
    have hsl : st.sliceItems = [] := List.length_eq_zero.mp hn0
    have h1 : hSwap st (0 : Int) (slen st - 1) = none := by
      rw [hSwap, if_neg (by rw [slen_eq_nlen, hn0]; decide)]
      rw [show sliceGet st.sliceItems (0 : Int) = none from by simp [sliceGet, hsl]]
      rfl
    rw [cachePop, popItem, heapPopGo, h1]
    rfl
  · intro hlen
    have hn : 0 < nlen st := by
      rw [← hw.count]
      have h0 : (0 : Int) < (st.mapItems.length : Int) := hlen
      exact_mod_cast h0
    obtain ⟨st', it, p0, hrun, hw', hnlen', hmap', _, _, _, _, _, hmin, _⟩ :=
      popItem_spec st hw hn
    refine ⟨st', it, hrun, ?_, hw', ?_, hmin⟩
    · rw [cachePop, hrun]
      rfl
    · show (st'.mapItems.length : Int) = (st.mapItems.length : Int) - 1
      rw [hw'.count, hw.count, hnlen']
      have := hn
      push_cast
      omega

theorem claim_C4_pop_amended_witness :
    (cacheLen (NewHeapedCache 5 : CacheState Nat Nat) = 0 →
      cachePop (NewHeapedCache 5 : CacheState Nat Nat) = none) ∧
    (0 < cacheLen (NewHeapedCache 5 : CacheState Nat Nat) →
      ∃ st' it, popItem (NewHeapedCache 5 : CacheState Nat Nat) = some (st', it) ∧
        cachePop (NewHeapedCache 5 : CacheState Nat Nat) = some (st', it.obj) ∧ WF st' ∧
        cacheLen st' = cacheLen (NewHeapedCache 5 : CacheState Nat Nat) - 1 ∧
        (∀ j, j < nlen (NewHeapedCache 5 : CacheState Nat Nat) →
          it.Refreshed ≤ tsD (NewHeapedCache 5 : CacheState Nat Nat) j)) :=
  claim_C4_pop_amended (NewHeapedCache 5) (WF_new 5)

/-- Claim C5 — Drain order: a cache built by pushing distinct keys with
non-nil values without ever exceeding capacity, drained by repeated
`Pop()` until `Len() = 0`, yields every inserted key exactly once in
non-decreasing order of the entries' `Refreshed` timestamps. -/
theorem claim_C5_drain_order (maxRows : Int) (ops : List (TId × TObj))
    (hnd : (ops.map Prod.fst).Nodup) (hcap : (ops.length : Int) ≤ maxRows) :
    ∃ st items, pushSeq (NewHeapedCache maxRows) ops = some st ∧
      drainItems (nlen st) st = some items ∧
      (items.map (fun it => it.Id)).Perm (ops.map Prod.fst) ∧
      List.Sorted (· ≤ ·) (items.map (fun it => it.Refreshed)) := by
  obtain ⟨st, hrun, hw, hkeys, hn, hmax⟩ := pushSeq_keys ops (NewHeapedCache maxRows)
    (WF_new maxRows)
    (by simpa [NewHeapedCache] using hnd)
    (by
      show ((nlen (NewHeapedCache maxRows : CacheState TId TObj) : Int) + ops.length ≤ _)
      simp only [nlen, NewHeapedCache, List.length_nil, Nat.cast_zero, zero_add]
      exact hcap)
  obtain ⟨items, hdrain, hperm, hsort, _⟩ := drain_spec (nlen st) st hw le_rfl
  refine ⟨st, items, hrun, hdrain, ?_, hsort⟩
  rw [hkeys] at hperm
  simpa [NewHeapedCache] using hperm

theorem claim_C5_drain_order_witness :
    ((([(1, 10), (2, 20)] : List (Nat × Nat)).map Prod.fst).Nodup ∧
      ((([(1, 10), (2, 20)] : List (Nat × Nat)).length : Int) ≤ 3)) ∧
    ∃ st items, pushSeq (NewHeapedCache 3 : CacheState Nat Nat) [(1, 10), (2, 20)] = some st ∧
      drainItems (nlen st) st = some items ∧
      (items.map (fun it => it.Id)).Perm ((([(1, 10), (2, 20)] : List (Nat × Nat))).map Prod.fst) ∧
      List.Sorted (· ≤ ·) (items.map (fun it => it.Refreshed)) :=
  ⟨⟨by decide, by decide⟩,
    claim_C5_drain_order 3 [(1, 10), (2, 20)] (by decide) (by decide)⟩

/-- Claim C6 — Identity after update: on a cache holding key `k`, pushing
`(k, v1)` and then `(k, v2)` (both non-nil) keeps `Len()` and the whole
identity index unchanged, makes `Get(k)` return `v2`, and stamps the
entry's `Refreshed` with the time of the second push; no entry is created
or destroyed. -/
theorem claim_C6_identity_after_update (st : CacheState TId TObj) (k : TId)
    (v1 v2 : TObj) (p : Nat) (hw : WF st) (hpr : mapLookup st.mapItems k = some p) :
    ∃ st1 st2, cachePush st k (some v1) = some (st1, some v1) ∧
      cachePush st1 k (some v2) = some (st2, some v2) ∧ WF st2 ∧
      cacheLen st2 = cacheLen st ∧
      st2.mapItems = st.mapItems ∧
      cacheGet st2 k = some v2 ∧
      ∃ it, st2.store[p]? = some it ∧ it.Refreshed = st1.now := by
  obtain ⟨st1, hrun1, hw1, hmap1, hn1, hmax1, hnow1, hsl1, hview1⟩ :=
    cachePush_present st k v1 p hw hpr
  have hpr1 : mapLookup st1.mapItems k = some p := by rw [hmap1]; exact hpr
  obtain ⟨st2, hrun2, hw2, hmap2, hn2, hmax2, hnow2, hsl2, hview2⟩ :=
    cachePush_present st1 k v2 p hw1 hpr1
  cases hst2p : st2.store[p]? with
  | none =>
    rw [hst2p] at hview2
    exact absurd hview2 (by simp)
  | some it =>
    rw [hst2p] at hview2
    have hview : itemView it = (k, st1.now, some v2) := Option.some_injective _ hview2
    have hobj : it.obj = some v2 := congrArg (fun t => t.2.2) hview
    refine ⟨st1, st2, hrun1, hrun2, hw2, ?_, hmap2.trans hmap1, ?_, it, hst2p,
      congrArg (fun t => t.2.1) hview⟩
    · show (st2.mapItems.length : Int) = (st.mapItems.length : Int)
      rw [hmap2, hmap1]
    · have hpr2 : mapLookup st2.mapItems k = some p := by rw [hmap2]; exact hpr1
      rw [cacheGet_present st2 k p it hpr2 hst2p]
      exact hobj

def exampleOne : CacheState Nat Nat :=
  { maxRows := 10, mapItems := [(1, 0)], sliceItems := [some 0],
    store := [{ Id := 1, index := 0, Refreshed := 0, obj := some 11 }], now := 1 }

theorem pushSeq_exampleOne :
    pushSeq (NewHeapedCache 10 : CacheState Nat Nat) [(1, 11)] = some exampleOne := by
  decide

theorem WF_exampleOne : WF exampleOne := by
  obtain ⟨st, hrun, hw, _, _, _⟩ := pushSeq_keys [(1, 11)] (NewHeapedCache 10 : CacheState Nat Nat)
    (WF_new 10) (by decide) (by decide)
  have : st = exampleOne :=
    Option.some_injective _ ((pushSeq_exampleOne ▸ hrun : some exampleOne = some st)).symm
  exact this ▸ hw

theorem claim_C6_identity_after_update_witness :
    mapLookup exampleOne.mapItems 1 = some 0 ∧
    ∃ st1 st2, cachePush exampleOne 1 (some 21) = some (st1, some 21) ∧
      cachePush st1 1 (some 22) = some (st2, some 22) ∧ WF st2 ∧
      cacheLen st2 = cacheLen exampleOne ∧
      st2.mapItems = exampleOne.mapItems ∧
      cacheGet st2 1 = some 22 ∧
      ∃ it, st2.store[0]? = some it ∧ it.Refreshed = st1.now :=
  ⟨by decide,
    claim_C6_identity_after_update exampleOne 1 21 22 0 WF_exampleOne (by decide)⟩

/-- Claim C7 — `GetOrAdd` contract: a hit returns the stored value
without invoking the loader (invocation count 0); a miss invokes the
loader exactly once, and if it declines (`nil`) the cache state is
returned completely unchanged with a `nil` result, while if it produces
a value that value is inserted through the same insert-and-maybe-evict
path as `Push` and returned. -/
theorem claim_C7_getOrAdd_contract (st : CacheState TId TObj) (id : TId)
    (fn : TId → Option TObj) (hw : WF st) :
    (∀ p, mapLookup st.mapItems id = some p →
      ∃ it, st.store[p]? = some it ∧ cacheGetOrAdd st id fn = some (st, it.obj, 0)) ∧
    (mapLookup st.mapItems id = none → fn id = none →
      cacheGetOrAdd st id fn = some (st, none, 1)) ∧
    (∀ v, mapLookup st.mapItems id = none → fn id = some v →
      ∃ st', cachePush st id (some v) = some (st', some v) ∧
        cacheGetOrAdd st id fn = some (st', some v, 1) ∧ WF st') := by
  refine ⟨?_, cacheGetOrAdd_miss_none st id fn, ?_⟩
  · intro p hpr
    obtain ⟨i, hi, hpi, it, hit, hid⟩ := hw.mapinto id p hpr
    exact ⟨it, hit, cacheGetOrAdd_hit st id fn p it hpr hit⟩
  · intro v hpr hfn
    obtain ⟨st', hrun, hw', hmax', hcase⟩ := cachePush_absent st id v hw hpr
    refine ⟨st', hrun, ?_, hw'⟩
    rw [cacheGetOrAdd_miss_some st id fn v hpr hfn, hrun]
    rfl

theorem claim_C7_getOrAdd_contract_witness :
    (∀ p, mapLookup (NewHeapedCache 5 : CacheState Nat Nat).mapItems 1 = some p →
      ∃ it, (NewHeapedCache 5 : CacheState Nat Nat).store[p]? = some it ∧
        cacheGetOrAdd (NewHeapedCache 5 : CacheState Nat Nat) 1 (fun _ => some 7) =
          some (NewHeapedCache 5, it.obj, 0)) ∧
    (mapLookup (NewHeapedCache 5 : CacheState Nat Nat).mapItems 1 = none →
      (fun _ : Nat => some 7) 1 = none →
      cacheGetOrAdd (NewHeapedCache 5 : CacheState Nat Nat) 1 (fun _ => some 7) =
        some (NewHeapedCache 5, none, 1)) ∧
    (∀ v, mapLookup (NewHeapedCache 5 : CacheState Nat Nat).mapItems 1 = none →
      (fun _ : Nat => some 7) 1 = some v →
      ∃ st', cachePush (NewHeapedCache 5 : CacheState Nat Nat) 1 (some v) = some (st', some v) ∧
        cacheGetOrAdd (NewHeapedCache 5 : CacheState Nat Nat) 1 (fun _ => some 7) =
          some (st', some v, 1) ∧ WF st') :=
  claim_C7_getOrAdd_contract (NewHeapedCache 5) 1 (fun _ => some 7) (WF_new 5)

/-- Claim C8 — `Get` is effect-free: it is embedded as a pure function of
the state that returns the stored value when the key is live and `nil`
when it is absent; the state — in particular every `Refreshed` timestamp
and heap position — is not touched, so repeated `Get` calls never change
a key's eviction priority. -/
theorem claim_C8_get_effect_free (st : CacheState TId TObj) (k : TId) (hw : WF st) :
    (mapLookup st.mapItems k = none → cacheGet st k = none) ∧
    (∀ p, mapLookup st.mapItems k = some p →
      ∃ it, st.store[p]? = some it ∧ it.Id = k ∧ cacheGet st k = it.obj) := by
  refine ⟨cacheGet_absent st k, ?_⟩
  intro p hpr
  obtain ⟨i, hi, hpi, it, hit, hid⟩ := hw.mapinto k p hpr
  exact ⟨it, hit, hid, cacheGet_present st k p it hpr hit⟩

theorem claim_C8_get_effect_free_witness :
    (mapLookup exampleOne.mapItems 2 = none → cacheGet exampleOne 2 = none) ∧
    (∀ p, mapLookup exampleOne.mapItems 2 = some p →
      ∃ it, exampleOne.store[p]? = some it ∧ it.Id = 2 ∧ cacheGet exampleOne 2 = it.obj) :=
  claim_C8_get_effect_free exampleOne 2 WF_exampleOne

theorem pushSeq_degenerate (ops : List (TId × TObj)) : ∀ (st : CacheState TId TObj),
    WF st → nlen st = 0 → st.maxRows ≤ 0 →
    ∃ st', pushSeq st ops = some st' ∧ WF st' ∧ nlen st' = 0 ∧
      st'.maxRows = st.maxRows := by
  induction ops with
  | nil => exact fun st hw h0 _ => ⟨st, rfl, hw, h0, rfl⟩
  | cons hd tl ih =>
    intro st hw h0 hmax
    obtain ⟨k, v⟩ := hd
    have hmap0 : st.mapItems = [] := by
      have := hw.count
      rw [h0] at this
      exact List.length_eq_zero.mp this
    have habs : mapLookup st.mapItems k = none := by
      rw [hmap0]
      rfl
    obtain ⟨st1, hrun1, hw1, hmax1, hcase⟩ := cachePush_absent st k v hw habs
    have hn1 : nlen st1 = 0 := by
      rcases hcase with ⟨_, hn⟩ | ⟨hov, _, _⟩
      · rw [hn, h0]
      · exfalso
        rw [h0] at hov
        simp only [Nat.cast_zero, zero_add] at hov
        omega
    obtain ⟨st2, hrun2, hw2, hn2, hmax2⟩ := ih st1 hw1 hn1 (by rw [hmax1]; exact hmax)
    refine ⟨st2, ?_, hw2, hn2, by rw [hmax2, hmax1]⟩
    rw [pushSeq, hrun1]
    exact hrun2

/-- Claim C9 as stated is false at `maxRows = 0`: construction with the
non-positive capacity 0 is not rejected — `NewHeapedCacheGo 0` succeeds
(the `make` hint `0+1` is non-negative) and silently yields a working
cache on which `Push` completes normally (inserting and at once
evicting), instead of failing fast. -/
theorem claim_C9_counterexample :
    (NewHeapedCacheGo 0 : Option (CacheState Nat Nat)).bind
        (fun st => cachePush st 1 (some 5)) =
      some ({ maxRows := 0, mapItems := [], sliceItems := [],
              store := [{ Id := 1, index := -1, Refreshed := 0, obj := some 5 }],
              now := 1 }, some 5) := by decide

/-- Claim C9, amended: the constructor performs no capacity validation
of its own.  Its only failure is the run-time panic of `make` on a
negative size/capacity hint, which fires exactly when `maxRows ≤ -2`;
for every `maxRows ≥ -1` — including the non-positive capacities 0 and
-1 that the spec says must be rejected — construction silently returns
the empty cache with that capacity, and the cache then operates without
failing: every sequence of pushes succeeds and leaves the live count at
0. -/
theorem claim_C9_construction_amended (maxRows : Int) :
    (maxRows ≤ -2 → (NewHeapedCacheGo maxRows : Option (CacheState TId TObj)) = none) ∧
    (-1 ≤ maxRows → (NewHeapedCacheGo maxRows : Option (CacheState TId TObj)) =
      some { maxRows := maxRows, mapItems := [], sliceItems := [], store := [], now := 0 }) ∧
    (-1 ≤ maxRows → maxRows ≤ 0 → ∀ ops : List (TId × TObj),
      ∃ st', (NewHeapedCacheGo maxRows).bind (fun st => pushSeq st ops) = some st' ∧
        cacheLen st' = 0) := by
  refine ⟨?_, ?_, ?_⟩
  · intro h
    rw [NewHeapedCacheGo, if_pos (by omega)]
  · intro h
    rw [NewHeapedCacheGo, if_neg (by omega)]
    rfl
  · intro h1 h2 ops
    obtain ⟨st', hrun, hw', hn', _⟩ := pushSeq_degenerate ops (NewHeapedCache maxRows)
      (WF_new maxRows) rfl h2
    refine ⟨st', ?_, ?_⟩
    · rw [NewHeapedCacheGo, if_neg (by omega)]
      show pushSeq (NewHeapedCache maxRows) ops = some st'
      exact hrun
    · show (st'.mapItems.length : Int) = 0
      rw [hw'.count, hn']
      rfl

theorem claim_C9_construction_amended_witness :
    (NewHeapedCacheGo (-2) : Option (CacheState Nat Nat)) = none ∧
    ∃ st', (NewHeapedCacheGo 0 : Option (CacheState Nat Nat)).bind
        (fun st => pushSeq st [(1, 5)]) = some st' ∧ cacheLen st' = 0 :=
  ⟨(claim_C9_construction_amended (-2)).1 (by decide),
    (claim_C9_construction_amended 0).2.2 (by decide) (by decide) [(1, 5)]⟩

/-- Claim C10 — `maxRows = 0` edge case: on a cache constructed with
capacity 0, every sequence of pushes with non-nil values succeeds, leaves
`Len()` at 0 and `Get(k)` at `nil` for every key (each entry is inserted
and immediately evicted within its own push), and a further `Push` still
returns its argument. -/
theorem claim_C10_maxRows_zero (ops : List (TId × TObj)) :
    ∃ st', pushSeq (NewHeapedCache 0) ops = some st' ∧ cacheLen st' = 0 ∧
      (∀ k : TId, cacheGet st' k = none) ∧
      (∀ (k : TId) (v : TObj),
        (cachePush st' k (some v)).map Prod.snd = some (some v)) := by
  obtain ⟨st', hrun, hw', hn', hmax'⟩ := pushSeq_degenerate ops (NewHeapedCache 0)
    (WF_new 0) rfl (le_refl 0)
  have hmap0 : st'.mapItems = [] := by
    have := hw'.count
    rw [hn'] at this
    exact List.length_eq_zero.mp this
  have habs : ∀ k : TId, mapLookup st'.mapItems k = none := by
    intro k
    rw [hmap0]
    rfl
  refine ⟨st', hrun, ?_, fun k => cacheGet_absent st' k (habs k), ?_⟩
  · show (st'.mapItems.length : Int) = 0
    rw [hw'.count, hn']
    rfl
  · intro k v
    obtain ⟨st2, hrun2, _, _, _⟩ := cachePush_absent st' k v hw' (habs k)
    rw [hrun2]
    rfl

end Claims

end HeapedCacheModel
